import Mathlib

/-!
Verification of the event/date-time NLP parser
(`api/parsing/rules.py` and `api/parsing/parser.py`).

Modelling conventions:
* Strings are Lean `String` / `List Char`.  Python `str.lower`, `str.strip`,
  `str.isdigit` and the character classes of `re` (`\s`, `\w`, `\d`) are
  modelled on the ASCII range.
* Each Python regular expression used by the source is modelled by a
  hand-written scanner implementing `re.search`'s leftmost-match semantics
  (with the greedy/backtracking behaviour of the concrete pattern).
* `datetime` values are modelled by `PyDateTime`, with the calendar date
  abstracted to a single day index (no claim inspects year/month/day
  structure).  `datetime.replace` raising `ValueError` on an out-of-range
  hour or minute is modelled by `Option`; `datetime.now()` is a `now`
  parameter captured once per call.
* The external collaborators (`spacy`, `dateparser`, `parsedatetime`) are
  function parameters.
-/

/-- Python whitespace (`\s` and `str.strip`), ASCII range. -/
def isWsChar (c : Char) : Bool :=
  decide (c.toNat = 32 ∨ c.toNat = 9 ∨ c.toNat = 10 ∨ c.toNat = 13 ∨
    c.toNat = 11 ∨ c.toNat = 12)

/-- Python `\d`. -/
def isDigitChar (c : Char) : Bool :=
  decide (48 ≤ c.toNat ∧ c.toNat ≤ 57)

/-- Python `\w` (a word character), ASCII range. -/
def isWordChar (c : Char) : Bool :=
  isDigitChar c ||
    decide ((65 ≤ c.toNat ∧ c.toNat ≤ 90) ∨ (97 ≤ c.toNat ∧ c.toNat ≤ 122) ∨
      c.toNat = 95)

/-- Numeric value of a digit character. -/
def digitVal (c : Char) : Nat := c.toNat - 48

/-- Python `str.lower`, per character, ASCII range. -/
def py_lower_char (c : Char) : Char :=
  if 65 ≤ c.toNat ∧ c.toNat ≤ 90 then Char.ofNat (c.toNat + 32) else c

def pyLowerList (l : List Char) : List Char := l.map py_lower_char

def lowerStr (s : String) : String := ⟨pyLowerList s.data⟩

def trimLeft (l : List Char) : List Char := l.dropWhile isWsChar

def trimRight (l : List Char) : List Char := (l.reverse.dropWhile isWsChar).reverse

/-- Python `str.strip()`. -/
def pyStrip (l : List Char) : List Char := trimRight (trimLeft l)

def pyStripStr (s : String) : String := ⟨pyStrip s.data⟩

/-- Python `str.startswith`. -/
def hasPrefixList : List Char → List Char → Bool
  | [], _ => true
  | _ :: _, [] => false
  | c :: p, d :: s => if d = c then hasPrefixList p s else false

/-- Python `str.isdigit`, ASCII range. -/
def pyIsDigit (s : String) : Bool := !s.data.isEmpty && s.data.all isDigitChar

/-- Model of `str.replace('@', 'at')`. -/
def replaceAtSign (l : List Char) : List Char :=
  (l.map (fun c => if c = '@' then ['a', 't'] else [c])).flatten

/-- Maximal runs of characters agreeing on `isWordChar`. -/
def splitRuns : List Char → List (List Char)
  | [] => []
  | c :: cs =>
    match splitRuns cs with
    | [] => [[c]]
    | [] :: rs => [c] :: rs
    | (d :: r) :: rs =>
      if isWordChar c = isWordChar d then (c :: d :: r) :: rs
      else [c] :: (d :: r) :: rs

/-- Model of `re.sub(r'\bW\b', rep, s)` for a literal `W` made of word characters
only: such a pattern matches exactly the maximal word-character runs equal
to `W`, so the substitution rewrites precisely those runs. -/
def substWord (w rep : List Char) (l : List Char) : List Char :=
  ((splitRuns l).map (fun run => if run = w then rep else run)).flatten

/-- The abbreviation table of `rules.normalize_text`, in source order. -/
def abbreviations : List (List Char × List Char) :=
  [("tmr".data, "tomorrow".data), ("yest".data, "yesterday".data),
   ("tdy".data, "today".data), ("tn".data, "tonight".data)]

/-- Model of `rules.normalize_text`: lowercase, strip, `@` → `at`, then the
whole-word abbreviation substitutions in order. -/
def normalize_text (text : String) : String :=
  let normalized := replaceAtSign (pyStrip (pyLowerList text.data))
  ⟨abbreviations.foldl (fun acc wr => substWord wr.1 wr.2 acc) normalized⟩

/-! ### Scanners for the regular expressions of `rules.py` -/

/-- Model of `\b` at the start of a match whose first character is a word
character: the preceding character (if any) must not be a word character. -/
def okPrev : Option Char → Bool
  | none => true
  | some c => !isWordChar c

/-- Model of `\b` at the end of a match whose last character is a word character:
the next character (if any) must not be a word character. -/
def noWordNext : List Char → Bool
  | [] => true
  | c :: _ => !isWordChar c

/-- Match a literal, returning the rest of the input. -/
def matchLit : List Char → List Char → Option (List Char)
  | [], s => some s
  | _ :: _, [] => none
  | c :: w, d :: s => if d = c then matchLit w s else none

/-- Model of `\s+` (followed in all its uses by a non-whitespace character, so the
greedy maximal run is the only viable alternative). -/
def headWs : List Char → Option (List Char)
  | [] => none
  | c :: r => if isWsChar c then some (trimLeft r) else none

/-- Greedy `(\d{1,2})`: the two-digit reading first and, when available,
the one-digit backtracking alternative. -/
def read12 : List Char → Option ((Nat × List Char) × Option (Nat × List Char))
  | [] => none
  | [a] => if isDigitChar a then some ((digitVal a, []), none) else none
  | a :: b :: s =>
    if isDigitChar a then
      if isDigitChar b then
        some ((10 * digitVal a + digitVal b, s), some (digitVal a, b :: s))
      else some ((digitVal a, b :: s), none)
    else none

/-- Run the continuation on the greedy alternative of `(\d{1,2})`,
backtracking to the one-digit alternative when it fails. -/
def with12 (s : List Char) (k : Nat → List Char → Option α) : Option α :=
  match read12 s with
  | none => none
  | some ga =>
    match k ga.1.1 ga.1.2 with
    | some r => some r
    | none =>
      match ga.2 with
      | some a => k a.1 a.2
      | none => none

/-- Model of `(\d{2})`. -/
def read2 : List Char → Option (Nat × List Char)
  | a :: b :: s =>
    if isDigitChar a && isDigitChar b then some (10 * digitVal a + digitVal b, s)
    else none
  | _ => none

/-- Model of `(\d+)`: maximal digit run (its uses are followed by `\s`, so no
backtracking alternative is viable). -/
def readDigitsAux : List Char → Nat → Nat × List Char
  | [], acc => (acc, [])
  | c :: s, acc =>
    if isDigitChar c then readDigitsAux s (10 * acc + digitVal c) else (acc, c :: s)

def readDigits : List Char → Option (Nat × List Char)
  | [] => none
  | c :: s => if isDigitChar c then some (readDigitsAux s (digitVal c)) else none

inductive Meridiem where
  | am
  | pm
deriving DecidableEq, Repr

/-- Model of `(am|pm)` / `(?:am|pm)` on lowercased text. -/
def readMer : List Char → Option (Meridiem × List Char)
  | 'a' :: 'm' :: s => some (.am, s)
  | 'p' :: 'm' :: s => some (.pm, s)
  | _ => none

/-- Model of `re.search`: try the position matcher at every position, leftmost
first.  (None of the modelled patterns can match the empty string, so only
positions with at least one remaining character need to be tried.) -/
def reSearch (f : Option Char → List Char → Option α) :
    Option Char → List Char → Option α
  | _, [] => none
  | prev, c :: rest =>
    match f prev (c :: rest) with
    | some r => some r
    | none => reSearch f (some c) rest

/-- Does the input start with a nonempty whitespace run followed by a word
character? -/
def wsThenWord (s : List Char) : Bool :=
  match s with
  | [] => false
  | c :: _ =>
    isWsChar c &&
      (match trimLeft s with
       | [] => false
       | d :: _ => isWordChar d)

/-- The tail `\s*(?:am|pm)?\b` after a digit: either the meridiem matches
after the maximal whitespace run with a word boundary after it, or the
meridiem is empty and the boundary sits directly after the digit (next
character non-word or end) or after a nonempty whitespace run whose
successor is a word character. -/
def tailOptMer (s : List Char) : Option (Option Meridiem) :=
  match readMer (trimLeft s) with
  | some (m, r) =>
    if noWordNext r then some (some m)
    else if noWordNext s || wsThenWord s then some none else none
  | none => if noWordNext s || wsThenWord s then some none else none

/-- The tail `(?:\s*(?:am|pm))?\b` after a digit: whitespace plus a
meridiem with a boundary after it, or the whole group empty with the
boundary directly after the digit. -/
def tailGroupMer (s : List Char) : Option (Option Meridiem) :=
  match readMer (trimLeft s) with
  | some (m, r) =>
    if noWordNext r then some (some m)
    else if noWordNext s then some none else none
  | none => if noWordNext s then some none else none

/-- Model of `\b(\d{1,2})\s*(?:am|pm)\b` at one position. -/
def tryT1 (prev : Option Char) (s : List Char) : Option (Nat × Meridiem) :=
  if okPrev prev then
    with12 s (fun h rest =>
      match readMer (trimLeft rest) with
      | some (m, r) => if noWordNext r then some (h, m) else none
      | none => none)
  else none

/-- Model of `\bat\s+(\d{1,2})\s*(?:am|pm)?\b` at one position. -/
def tryT2 (prev : Option Char) (s : List Char) : Option (Nat × Option Meridiem) :=
  if okPrev prev then
    match matchLit "at".data s with
    | none => none
    | some r1 =>
      match headWs r1 with
      | none => none
      | some r2 => with12 r2 (fun h rest => (tailOptMer rest).map (fun m => (h, m)))
  else none

/-- Model of `@(\d{1,2})(?:\s*(?:am|pm))?\b` at one position. -/
def tryT3 (_ : Option Char) (s : List Char) : Option (Nat × Option Meridiem) :=
  match s with
  | '@' :: r1 => with12 r1 (fun h rest => (tailGroupMer rest).map (fun m => (h, m)))
  | _ => none

/-- Model of `@\s+(\d{1,2})\s*(?:am|pm)?\b` at one position. -/
def tryT4 (_ : Option Char) (s : List Char) : Option (Nat × Option Meridiem) :=
  match s with
  | '@' :: r1 =>
    match headWs r1 with
    | none => none
    | some r2 => with12 r2 (fun h rest => (tailOptMer rest).map (fun m => (h, m)))
  | _ => none

/-- Model of `\b(\d{1,2}):(\d{2})\s*(?:am|pm)?\b` at one position. -/
def tryT5 (prev : Option Char) (s : List Char) :
    Option ((Nat × Nat) × Option Meridiem) :=
  if okPrev prev then
    with12 s (fun h rest =>
      match rest with
      | ':' :: r2 =>
        match read2 r2 with
        | some (mnt, r3) => (tailOptMer r3).map (fun m => ((h, mnt), m))
        | none => none
      | _ => none)
  else none

/-- Model of `@(\d{1,2}):(\d{2})(?:\s*(?:am|pm))?\b` at one position. -/
def tryT6 (_ : Option Char) (s : List Char) :
    Option ((Nat × Nat) × Option Meridiem) :=
  match s with
  | '@' :: r1 =>
    with12 r1 (fun h rest =>
      match rest with
      | ':' :: r2 =>
        match read2 r2 with
        | some (mnt, r3) => (tailGroupMer r3).map (fun m => ((h, mnt), m))
        | none => none
      | _ => none)
  | _ => none

/-- Model of `@\s+(\d{1,2}):(\d{2})\s*(?:am|pm)?\b` at one position. -/
def tryT7 (_ : Option Char) (s : List Char) :
    Option ((Nat × Nat) × Option Meridiem) :=
  match s with
  | '@' :: r1 =>
    match headWs r1 with
    | none => none
    | some r2 =>
      with12 r2 (fun h rest =>
        match rest with
        | ':' :: r3 =>
          match read2 r3 with
          | some (mnt, r4) => (tailOptMer r4).map (fun m => ((h, mnt), m))
          | none => none
        | _ => none)
  | _ => none

/-- Model of `\bnoon\b` at one position. -/
def tryNoon (prev : Option Char) (s : List Char) : Option Unit :=
  if okPrev prev then
    match matchLit "noon".data s with
    | some r => if noWordNext r then some () else none
    | none => none
  else none

/-- Model of `\bmidnight\b` at one position. -/
def tryMidnight (prev : Option Char) (s : List Char) : Option Unit :=
  if okPrev prev then
    match matchLit "midnight".data s with
    | some r => if noWordNext r then some () else none
    | none => none
  else none

/-- Model of `\bat\s+night\b` at one position. -/
def tryAtNight (prev : Option Char) (s : List Char) : Option Unit :=
  if okPrev prev then
    match matchLit "at".data s with
    | none => none
    | some r1 =>
      match headWs r1 with
      | none => none
      | some r2 =>
        match matchLit "night".data r2 with
        | some r3 => if noWordNext r3 then some () else none
        | none => none
  else none

/-- The meridiem conversion of the handlers in `extract_explicit_time` and
`extract_time_range`: `'pm' in the match` and hour ≠ 12 adds 12, `'am' in
the match` and hour = 12 gives 0, otherwise the hour is unchanged. -/
def convertMer (h : Nat) : Option Meridiem → Nat
  | some .pm => if h ≠ 12 then h + 12 else h
  | some .am => if h = 12 then 0 else h
  | none => h

/-! ### `rules.py` -/

/-- Model of `rules.extract_explicit_time`.  The source's `base_date` parameter is
never used by the body and is omitted.  The three keyword checks precede
the `TIME_PATTERNS` loop; inside the loop the entries of type `noon` and
`midnight` have no handler (the `if`/`elif` chain falls through and the
loop continues), and the final `at_night` entry's handler is kept although
the early keyword check makes it unreachable. -/
def extract_explicit_time (text : String) : Option (Nat × Nat) :=
  let t := pyLowerList text.data
  if (reSearch tryNoon none t).isSome then some (12, 0)
  else if (reSearch tryMidnight none t).isSome then some (0, 0)
  else if (reSearch tryAtNight none t).isSome then some (20, 0)
  else
    match reSearch tryT1 none t with
    | some (h, m) => some (convertMer h (some m), 0)
    | none =>
      match reSearch tryT2 none t with
      | some (h, m) => some (convertMer h m, 0)
      | none =>
        match reSearch tryT3 none t with
        | some (h, m) => some (convertMer h m, 0)
        | none =>
          match reSearch tryT4 none t with
          | some (h, m) => some (convertMer h m, 0)
          | none =>
            match reSearch tryT5 none t with
            | some (hm, m) => some (convertMer hm.1 m, hm.2)
            | none =>
              match reSearch tryT6 none t with
              | some (hm, m) => some (convertMer hm.1 m, hm.2)
              | none =>
                match reSearch tryT7 none t with
                | some (hm, m) => some (convertMer hm.1 m, hm.2)
                | none =>
                  if (reSearch tryAtNight none t).isSome then some (20, 0)
                  else none

/-- Python `datetime`, with the calendar date abstracted to a day index. -/
structure PyDateTime where
  day : Int
  hour : Nat
  minute : Nat
  second : Nat
  usec : Nat
deriving DecidableEq, Repr

/-- Model of `base + timedelta(hours=v)`. -/
def addHours (d : PyDateTime) (v : Nat) : PyDateTime :=
  let t := d.hour + v
  { d with hour := t % 24, day := d.day + (t / 24 : Nat) }

/-- Model of `base + timedelta(minutes=v)`. -/
def addMinutes (d : PyDateTime) (v : Nat) : PyDateTime :=
  let t := d.minute + v
  addHours { d with minute := t % 60 } (t / 60)

/-- Model of `base + timedelta(days=v)`. -/
def addDays (d : PyDateTime) (v : Nat) : PyDateTime :=
  { d with day := d.day + (v : Int) }

/-- The tail `s?\b` after a unit word such as `hour`. -/
def relTail : List Char → Bool
  | 's' :: r2 => noWordNext r2
  | r => noWordNext r

/-- Model of `\bin\s+(\d+)\s+Us?\b` at one position, for a unit stem `U` (`hour`,
`minute` or `day`). -/
def tryRel (unit : List Char) (prev : Option Char) (s : List Char) : Option Nat :=
  if okPrev prev then
    match matchLit "in".data s with
    | none => none
    | some r1 =>
      match headWs r1 with
      | none => none
      | some r2 =>
        match readDigits r2 with
        | none => none
        | some (v, r3) =>
          match headWs r3 with
          | none => none
          | some r4 =>
            match matchLit unit r4 with
            | some r5 => if relTail r5 then some v else none
            | none => none
  else none

/-- Model of `rules.extract_relative_time`: the `RELATIVE_TIME_PATTERNS` list in
order, first match wins. -/
def extract_relative_time (text : String) (base_date : PyDateTime) :
    Option PyDateTime :=
  let t := pyLowerList text.data
  match reSearch (tryRel "hour".data) none t with
  | some v => some (addHours base_date v)
  | none =>
    match reSearch (tryRel "minute".data) none t with
    | some v => some (addMinutes base_date v)
    | none =>
      match reSearch (tryRel "day".data) none t with
      | some v => some (addDays base_date v)
      | none => none

/-- The shapes a `TIME_RANGE_PATTERNS` match can take. -/
inductive RangeCapture where
  | rnow (endHour : Nat) (period : Meridiem)
  | r12 (startHour endHour : Nat) (period : Meridiem)
  | r24 (startHour startMinute endHour endMinute : Nat) (period : Option Meridiem)
deriving DecidableEq, Repr

/-- Model of `now\s*-\s*(\d{1,2})\s*(am|pm)` at one position (no `\b` anchors in the
source pattern). -/
def tryR1 (_ : Option Char) (s : List Char) : Option (Nat × Meridiem) :=
  match matchLit "now".data s with
  | none => none
  | some r1 =>
    match trimLeft r1 with
    | '-' :: r2 =>
      with12 (trimLeft r2) (fun h rest =>
        (readMer (trimLeft rest)).map (fun m => (h, m.1)))
    | _ => none

/-- Model of `now\s+to\s+(\d{1,2})\s*(am|pm)` at one position. -/
def tryR2 (_ : Option Char) (s : List Char) : Option (Nat × Meridiem) :=
  match matchLit "now".data s with
  | none => none
  | some r1 =>
    match headWs r1 with
    | none => none
    | some r2 =>
      match matchLit "to".data r2 with
      | none => none
      | some r3 =>
        match headWs r3 with
        | none => none
        | some r4 =>
          with12 r4 (fun h rest =>
            (readMer (trimLeft rest)).map (fun m => (h, m.1)))

/-- Model of `(\d{1,2})\s*-\s*(\d{1,2})\s*(am|pm)` at one position. -/
def tryR3 (_ : Option Char) (s : List Char) : Option ((Nat × Nat) × Meridiem) :=
  with12 s (fun sh rest =>
    match trimLeft rest with
    | '-' :: r2 =>
      with12 (trimLeft r2) (fun eh rest2 =>
        (readMer (trimLeft rest2)).map (fun m => ((sh, eh), m.1)))
    | _ => none)

/-- Model of `(\d{1,2})\s+to\s+(\d{1,2})\s*(am|pm)` at one position. -/
def tryR4 (_ : Option Char) (s : List Char) : Option ((Nat × Nat) × Meridiem) :=
  with12 s (fun sh rest =>
    match headWs rest with
    | none => none
    | some r2 =>
      match matchLit "to".data r2 with
      | none => none
      | some r3 =>
        match headWs r3 with
        | none => none
        | some r4 =>
          with12 r4 (fun eh rest2 =>
            (readMer (trimLeft rest2)).map (fun m => ((sh, eh), m.1))))

/-- Model of `(\d{1,2}):(\d{2})\s*-\s*(\d{1,2}):(\d{2})\s*(am|pm)?` at one
position. -/
def tryR5 (_ : Option Char) (s : List Char) :
    Option ((Nat × Nat) × (Nat × Nat) × Option Meridiem) :=
  with12 s (fun sh rest =>
    match rest with
    | ':' :: r1 =>
      match read2 r1 with
      | none => none
      | some (sm, r2) =>
        match trimLeft r2 with
        | '-' :: r3 =>
          with12 (trimLeft r3) (fun eh rest2 =>
            match rest2 with
            | ':' :: r4 =>
              match read2 r4 with
              | none => none
              | some (em, r5) =>
                some ((sh, sm), (eh, em), (readMer (trimLeft r5)).map (·.1))
            | _ => none)
        | _ => none
    | _ => none)

/-- The pattern-matching stage of `rules.extract_time_range`: the
`TIME_RANGE_PATTERNS` list in order, first pattern matching anywhere in the
text wins.  Whether and what a pattern matches does not depend on
`base_date`. -/
def range_match (t : List Char) : Option RangeCapture :=
  match reSearch tryR1 none t with
  | some (h, p) => some (.rnow h p)
  | none =>
    match reSearch tryR2 none t with
    | some (h, p) => some (.rnow h p)
    | none =>
      match reSearch tryR3 none t with
      | some (se, p) => some (.r12 se.1 se.2 p)
      | none =>
        match reSearch tryR4 none t with
        | some (se, p) => some (.r12 se.1 se.2 p)
        | none =>
          match reSearch tryR5 none t with
          | some (st, et, p) => some (.r24 st.1 st.2 et.1 et.2 p)
          | none => none

/-- The handlers of `rules.extract_time_range`, applied to the capture. -/
def interpretRange (base_date : PyDateTime) :
    RangeCapture → (Nat × Nat) × (Nat × Nat)
  | .rnow eh p =>
    ((base_date.hour, base_date.minute), (convertMer eh (some p), 0))
  | .r12 sh eh p =>
    ((convertMer sh (some p), 0), (convertMer eh (some p), 0))
  | .r24 sh sm eh em p =>
    match p with
    | some .pm =>
      ((if sh ≠ 12 then sh + 12 else sh, sm), (if eh ≠ 12 then eh + 12 else eh, em))
    | some .am =>
      ((if sh = 12 then 0 else sh, sm), (if eh = 12 then 0 else eh, em))
    | none => ((sh, sm), (eh, em))

/-- Model of `rules.extract_time_range`. -/
def extract_time_range (text : String) (base_date : PyDateTime) :
    Option ((Nat × Nat) × (Nat × Nat)) :=
  (range_match (pyLowerList text.data)).map (interpretRange base_date)

/-- Model of `rules.merge_datetime_time`:
`date_obj.replace(hour=h, minute=m, second=0, microsecond=0)`; the `none`
result models the `ValueError` that `replace` raises when the hour or
minute is out of range. -/
def merge_datetime_time (date_obj : PyDateTime) (time_tuple : Option (Nat × Nat)) :
    Option PyDateTime :=
  match time_tuple with
  | none => some date_obj
  | some (h, m) =>
    if h ≤ 23 ∧ m ≤ 59 then
      some { date_obj with hour := h, minute := m, second := 0, usec := 0 }
    else none

/-! ### `parser.py` -/

namespace Parser

def TEMPORAL_PATTERNS : List String := ["DATE", "TIME"]

def COMMAND_VERBS : List String :=
  ["set", "create", "schedule", "add", "make", "plan", "book",
   "put", "establish", "arrange", "organize", "setup"]

def TEMPORAL_WORDS : List String :=
  ["tomorrow", "tmr", "today", "tdy", "yesterday", "yest", "now", "tonight",
   "monday", "mon", "tuesday", "tue", "wednesday", "wed", "thursday", "thu",
   "friday", "fri", "saturday", "sat", "sunday", "sun",
   "january", "jan", "february", "feb", "march", "mar", "april", "apr",
   "may", "june", "jun", "july", "jul", "august", "aug", "september", "sep",
   "october", "oct", "november", "nov", "december", "dec",
   "am", "pm", "noon", "midnight", "at", "@", "in", "on", "next", "this",
   "last", "remind", "me", "to", "night"]

def TIME_UNITS : List String :=
  ["hour", "hours", "minute", "minutes", "day", "days",
   "week", "weeks", "month", "months", "year", "years"]

/-- Model of `NUMBER_WORDS` of the source: the missing comma between `'zero'` and
`'one'` concatenates the two literals into the single entry `"zeroone"`, so
neither `"zero"` nor `"one"` is in the set. -/
def NUMBER_WORDS : List String :=
  ["zeroone", "two", "three", "four", "five", "six", "seven", "eight",
   "nine", "ten", "eleven", "twelve", "twenty", "thirty", "forty", "fifty"]

def GENERIC_NOUNS : List String :=
  ["event", "meeting", "appointment", "reminder", "call", "task"]

/-- An annotated token from the external tokenizer, as consumed by the
parser: `text`, `pos_`, `dep_`, `ent_type_`, `like_num`, `is_alpha`, and
the index of the syntactic head (children are recovered by index scan). -/
structure SpacyToken where
  text : String
  pos : String
  dep : String
  ent_type : String
  head : Nat
  like_num : Bool
  is_alpha : Bool
deriving DecidableEq, Repr

def tokAt (doc : List SpacyToken) (i : Nat) : SpacyToken :=
  (doc[i]?).getD ⟨"", "", "", "", 0, false, false⟩

/-- Model of `token.children`: the tokens whose head is this token (excluding the
token itself, as for a `spacy` root). -/
def children (doc : List SpacyToken) (i : Nat) : List Nat :=
  (List.range doc.length).filter (fun j => decide ((tokAt doc j).head = i ∧ j ≠ i))

/-- Model of `Parser.detect_intent`. -/
def detect_intent (text : String) : String :=
  let normalized := normalize_text text
  if hasPrefixList "remind me".data normalized.data then "reminder" else "event"

/-- Model of `Parser.extract_datetime`.  `dp` models `dateparser.parse` (with
relative base `now` fixed by the orchestrator), `cal` models
`parsedatetime.Calendar.parseDT` returning a result and a status. -/
def extract_datetime (dp : String → Option PyDateTime)
    (cal : String → PyDateTime × Int) (now : PyDateTime) (text : String) :
    Option PyDateTime :=
  match dp text with
  | some parsed => some parsed
  | none =>
    let rs := cal text
    if 0 < rs.2 then some rs.1
    else
      match extract_relative_time text now with
      | some relative_dt => some relative_dt
      | none => none

/-- Model of `Parser.extract_time`.  The source computes `has_time` but returns
`explicit_time` before consulting it; both remaining branches return
`None`, so the flag is dead. -/
def extract_time (now : PyDateTime) (text : String)
    (date_obj : Option PyDateTime) : Option (Nat × Nat) :=
  let d := date_obj.getD now
  match extract_time_range text d with
  | some time_range => some time_range.1
  | none =>
    let has_time : Bool := decide (d.hour ≠ 0) || decide (d.minute ≠ 0)
    match extract_explicit_time text with
    | some explicit_time => some explicit_time
    | none => if has_time then none else none

/-- Model of `Parser._should_skip_article`. -/
def should_skip_article (doc : List SpacyToken) (i : Nat) : Bool :=
  let tl := lowerStr (tokAt doc i).text
  if tl = "an" ∨ tl = "a" ∨ tl = "the" then
    if 0 < i ∧ lowerStr (tokAt doc (i - 1)).text ∈ COMMAND_VERBS then true
    else if i + 1 < doc.length ∧ lowerStr (tokAt doc (i + 1)).text ∈ GENERIC_NOUNS then
      true
    else false
  else false

/-- Model of `Parser._get_time_phrase_indices`. -/
def get_time_phrase_indices (doc : List SpacyToken) (i : Nat) : List Nat :=
  let token := tokAt doc i
  if token.like_num then
    (if i + 1 < doc.length ∧ lowerStr (tokAt doc (i + 1)).text ∈ TIME_UNITS then
        [i, i + 1] ++
          (if 0 < i ∧ lowerStr (tokAt doc (i - 1)).text = "in" then [i - 1] else [])
      else []) ++
    (if i + 2 < doc.length ∧
        (lowerStr (tokAt doc (i + 1)).text = "-" ∨ lowerStr (tokAt doc (i + 1)).text = "to") ∧
        (tokAt doc (i + 2)).like_num ∧ i + 3 < doc.length ∧
        (lowerStr (tokAt doc (i + 3)).text = "am" ∨ lowerStr (tokAt doc (i + 3)).text = "pm") then
        [i, i + 1, i + 2, i + 3]
      else [])
  else
    (if lowerStr token.text = "in" ∧ i + 2 < doc.length ∧
        ((tokAt doc (i + 1)).like_num ∨ lowerStr (tokAt doc (i + 1)).text ∈ NUMBER_WORDS) ∧
        lowerStr (tokAt doc (i + 2)).text ∈ TIME_UNITS then
        [i, i + 1, i + 2]
      else []) ++
    (if lowerStr token.text = "at" ∧ i + 1 < doc.length ∧
        lowerStr (tokAt doc (i + 1)).text = "night" then
        [i, i + 1]
      else [])

/-- Model of `Parser._identify_tokens_to_skip`: per token, the first clause that
fires contributes its indices and the iteration continues (`continue`);
the union over the loop is the skip set (order and multiplicity are
irrelevant, only membership is consumed). -/
def identify_tokens_to_skip (doc : List SpacyToken) : List Nat :=
  ((List.range doc.length).map (fun i =>
    let token := tokAt doc i
    let token_lower := lowerStr token.text
    if token.ent_type ∈ TEMPORAL_PATTERNS then [i]
    else if token_lower ∈ TEMPORAL_WORDS then [i]
    else if token_lower ∈ COMMAND_VERBS then [i]
    else if should_skip_article doc i then [i]
    else get_time_phrase_indices doc i)).flatten

/-- Model of `Parser._add_phrase_children`. -/
def add_phrase_children (doc : List SpacyToken) (ti : Nat) : List Nat :=
  ((children doc ti).map (fun ci =>
    let child := tokAt doc ci
    if child.dep = "prep" ∨ child.dep = "pobj" ∨ child.dep = "amod" ∨
        child.dep = "compound" then
      ci :: (children doc ci).filter (fun gi =>
        decide ((tokAt doc gi).dep = "pobj" ∨ (tokAt doc gi).dep = "amod"))
    else [])).flatten

/-- Model of `Parser._extract_infinitive_phrases`. -/
def extract_infinitive_phrases (doc : List SpacyToken) : List Nat :=
  ((List.range doc.length).map (fun ti =>
    let token := tokAt doc ti
    if token.dep = "mark" ∧ lowerStr token.text = "to" then
      let vi := token.head
      let verb := tokAt doc vi
      if verb.pos = "VERB" then
        vi :: ((children doc vi).map (fun ci =>
          let child := tokAt doc ci
          if child.dep = "dobj" ∨ child.dep = "pobj" ∨ child.dep = "attr" ∨
              child.dep = "acomp" ∨ child.dep = "nsubj" ∨ child.dep = "nsubjpass" then
            ci :: add_phrase_children doc ci
          else if child.dep = "prep" then
            ci :: (children doc ci).filter (fun pi =>
              decide ((tokAt doc pi).dep = "pobj"))
          else [])).flatten
      else []
    else [])).flatten

end Parser

/-- Python `' '.join`. -/
def joinWords : List (List Char) → List Char
  | [] => []
  | [w] => w
  | w :: ws => w ++ ' ' :: joinWords ws

def joinStrings (ws : List String) : String := ⟨joinWords (ws.map String.data)⟩

/-- Python `str.split()` (split on whitespace runs, discarding empties):
accumulator version. -/
def pySplitAux : List Char → List Char → List (List Char)
  | [], acc => if acc = [] then [] else [acc.reverse]
  | c :: r, acc =>
    if isWsChar c then
      if acc = [] then pySplitAux r [] else acc.reverse :: pySplitAux r []
    else pySplitAux r (c :: acc)

def pySplit (l : List Char) : List (List Char) := pySplitAux l []

namespace Parser

/-- Model of `Parser._build_title_from_tokens`. -/
def build_title_from_tokens (doc : List SpacyToken)
    (tokens_to_skip infinitive_tokens : List Nat) : Option String :=
  if infinitive_tokens = [] then none
  else
    let title_tokens := doc.enum.filterMap (fun p =>
      if p.1 ∈ tokens_to_skip then none
      else if p.1 ∈ infinitive_tokens then some p.2.text
      else none)
    let title := pyStripStr (joinStrings title_tokens)
    if title = "" then none else some title

/-- Model of `Parser._build_title_fallback`. -/
def build_title_fallback (doc : List SpacyToken) (tokens_to_skip : List Nat) :
    String :=
  pyStripStr (joinStrings (doc.enum.filterMap (fun p =>
    if p.1 ∈ tokens_to_skip then none
    else if (p.2.pos = "NOUN" ∨ p.2.pos = "VERB" ∨ p.2.pos = "PROPN" ∨
          p.2.pos = "ADJ" ∨ p.2.is_alpha) ∧
        (1 < p.2.text.length ∨ lowerStr p.2.text = "i" ∨ lowerStr p.2.text = "a") then
      some p.2.text
    else none)))

def wordAt (words : List String) (i : Nat) : String := (words[i]?).getD ""

/-- The last two stages of one iteration of `Parser._filter_words_fallback`:
the lone `-`/`to` connector clause, then the append-if-not-skipped step. -/
def filterWordsTail (words : List String) (skips : List Nat) (i : Nat) :
    List Nat × Bool :=
  let wl := lowerStr (wordAt words i)
  if (wl = "-" ∨ wl = "to") ∧ 0 < i ∧ i + 1 < words.length ∧
      pyIsDigit (wordAt words (i - 1)) ∧ pyIsDigit (wordAt words (i + 1)) ∧
      i + 2 < words.length ∧
      (lowerStr (wordAt words (i + 2)) = "am" ∨ lowerStr (wordAt words (i + 2)) = "pm") then
    ([i], false)
  else ([], decide (i ∉ skips))

/-- One iteration of the loop in `Parser._filter_words_fallback`: the
indices added to `skip_indices` and whether `words[i]` is appended. -/
def filterWordsStep (words : List String) (skips : List Nat) (i : Nat) :
    List Nat × Bool :=
  let word := wordAt words i
  let wl := lowerStr word
  if wl ∈ TEMPORAL_WORDS ∨ wl ∈ COMMAND_VERBS then ([i], false)
  else if (wl = "an" ∨ wl = "a" ∨ wl = "the") ∧ 0 < i ∧
      lowerStr (wordAt words (i - 1)) ∈ COMMAND_VERBS then ([i], false)
  else if wl = "at" ∧ i + 1 < words.length ∧
      lowerStr (wordAt words (i + 1)) = "night" then ([i, i + 1], false)
  else if wl ∈ TIME_UNITS ∧ 0 < i ∧
      (pyIsDigit (wordAt words (i - 1)) ∨ lowerStr (wordAt words (i - 1)) ∈ NUMBER_WORDS) then
    (i :: (i - 1) ::
      (if 1 < i ∧ lowerStr (wordAt words (i - 2)) = "in" then [i - 2] else []), false)
  else if pyIsDigit word ∧ i + 1 < words.length then
    if lowerStr (wordAt words (i + 1)) ∈ TIME_UNITS then ([i], false)
    else if (lowerStr (wordAt words (i + 1)) = "-" ∨ lowerStr (wordAt words (i + 1)) = "to") ∧
        i + 2 < words.length ∧ pyIsDigit (wordAt words (i + 2)) ∧ i + 3 < words.length ∧
        (lowerStr (wordAt words (i + 3)) = "am" ∨ lowerStr (wordAt words (i + 3)) = "pm") then
      ([i, i + 1, i + 2, i + 3], false)
    else filterWordsTail words skips i
  else filterWordsTail words skips i

/-- The loop of `Parser._filter_words_fallback`, with the mutable
`skip_indices` and `filtered` threaded through; the first argument is
structural fuel, instantiated with `words.length` so that the loop runs
exactly over the indices `0 … words.length - 1`. -/
def filterWordsAux (words : List String) : Nat → Nat → List Nat →
    List String → List String
  | 0, _, _, acc => acc
  | fuel + 1, i, skips, acc =>
    if i < words.length then
      filterWordsAux words fuel (i + 1) (skips ++ (filterWordsStep words skips i).1)
        (if (filterWordsStep words skips i).2 then acc ++ [wordAt words i] else acc)
    else acc

/-- Model of `Parser._filter_words_fallback`. -/
def filter_words_fallback (text : String) : String :=
  let words := (pySplit text.data).map (fun w => (⟨w⟩ : String))
  pyStripStr (joinStrings (filterWordsAux words words.length 0 [] []))

/-- Model of `Parser.extract_title`.  The source's `date_obj` parameter is unused by
the body and is omitted; `nlp` is the external tokenizer. -/
def extract_title (nlp : String → List SpacyToken) (text : String) : String :=
  let doc := nlp text
  let tokens_to_skip := identify_tokens_to_skip doc
  let infinitive_tokens := extract_infinitive_phrases doc
  match build_title_from_tokens doc tokens_to_skip infinitive_tokens with
  | some title => title
  | none =>
    let t2 := build_title_fallback doc tokens_to_skip
    if t2 ≠ "" then t2
    else
      let t3 := filter_words_fallback text
      if t3 ≠ "" then t3
      else pyStripStr text

/-- The result record of `Parser.parse` (the Python dict); the two datetime
fields carry the values that the source serializes with `isoformat()`, and
`etype` is the dict key `"type"`. -/
structure ParsedEvent where
  title : String
  datetime : Option PyDateTime
  end_time : Option PyDateTime
  etype : String
deriving DecidableEq, Repr

/-- Model of `Parser.parse`.  `none` models an uncaught exception
(`datetime.replace` raising on an out-of-range hour/minute inside
`merge_datetime_time`); `now` models the wall clock captured at call
start. -/
def parse (dp : String → Option PyDateTime) (cal : String → PyDateTime × Int)
    (nlp : String → List SpacyToken) (now : PyDateTime) (text : String) :
    Option ParsedEvent :=
  if text = "" ∨ pyStripStr text = "" then
    some { title := "", datetime := none, end_time := none, etype := "event" }
  else
    let time_range := extract_time_range text now
    let normalized := normalize_text text
    let intent_type := detect_intent normalized
    let date_obj := extract_datetime dp cal now normalized
    match time_range with
    | some se =>
      let base := match date_obj with
        | some d => d
        | none => now
      match merge_datetime_time base (some se.1), merge_datetime_time base (some se.2) with
      | some start_datetime, some end_datetime =>
        let title := extract_title nlp normalized
        some { title := title, datetime := some start_datetime,
               end_time := some end_datetime, etype := intent_type }
      | _, _ => none
    | none =>
      let time_tuple := extract_time now text date_obj
      let merged : Option (Option PyDateTime) :=
        match date_obj, time_tuple with
        | some d, some t => (merge_datetime_time d (some t)).map some
        | none, some t => (merge_datetime_time now (some t)).map some
        | d, none => some d
      match merged with
      | none => none
      | some date_obj2 =>
        let title := extract_title nlp normalized
        some { title := title, datetime := date_obj2, end_time := none,
               etype := intent_type }

end Parser

/-! ### Auxiliary predicates and concrete collaborator instances -/

/-- An ASCII uppercase letter. -/
def isUpperChar (c : Char) : Prop := 65 ≤ c.toNat ∧ c.toNat ≤ 90

instance (c : Char) : Decidable (isUpperChar c) := by
  unfold isUpperChar
  infer_instance

/-- No character of the string is an ASCII uppercase letter. -/
def noUpperString (s : String) : Prop := ∀ c ∈ s.data, ¬ isUpperChar c

/-- A fixed wall-clock instant (midnight). -/
def now0 : PyDateTime := ⟨0, 0, 0, 0, 0⟩

/-- A datetime that already carries a time component (05:30). -/
def d530 : PyDateTime := ⟨0, 5, 30, 0, 0⟩

/-- A natural-language date resolver that never resolves. -/
def dp0 : String → Option PyDateTime := fun _ => none

/-- A calendar-heuristic resolver that always reports zero confidence. -/
def cal0 : String → PyDateTime × Int := fun _ => (now0, 0)

/-- A tokenizer producing no tokens. -/
def nlp0 : String → List Parser.SpacyToken := fun _ => []

/-- Canonical chunk lists: every chunk is nonempty and homogeneous for
`isWordChar`, consecutive chunks have different word-character flags, and
the first chunk's flag differs from `ob` (if given).  `splitRuns` produces
exactly the canonical chunk lists. -/
inductive Chunks : Option Bool → List (List Char) → Prop
  | nil (ob : Option Bool) : Chunks ob []
  | cons (ob : Option Bool) (b : Bool) (r : List Char) (rs : List (List Char))
      (hne : r ≠ []) (hall : ∀ c ∈ r, isWordChar c = b) (hob : ob ≠ some b)
      (hrest : Chunks (some b) rs) : Chunks ob (r :: rs)

/-- The composite effect, on a single run, of the four whole-word
abbreviation substitutions of `normalize_text`, in source order. -/
def substRunFun (run : List Char) : List Char :=
  let r1 := if run = "tmr".data then "tomorrow".data else run
  let r2 := if r1 = "yest".data then "yesterday".data else r1
  let r3 := if r2 = "tdy".data then "today".data else r2
  if r3 = "tn".data then "tonight".data else r3

/-! ### Character-level lemmas -/

theorem char_toNat_inj {c d : Char} (h : c.toNat = d.toNat) : c = d :=
  Char.ext (UInt32.ext h)

theorem ofNat_toNat_of_lt {n : Nat} (h : n < 55296) : (Char.ofNat n).toNat = n := by
  have hv : n.isValidChar := Or.inl h
  rw [Char.ofNat, dif_pos hv]
  simp [Char.ofNatAux, Char.toNat, UInt32.toNat]

theorem py_lower_char_toNat (c : Char) :
    (py_lower_char c).toNat =
      if 65 ≤ c.toNat ∧ c.toNat ≤ 90 then c.toNat + 32 else c.toNat := by
  unfold py_lower_char
  split
  · next h => exact ofNat_toNat_of_lt (by omega)
  · rfl

theorem py_lower_char_idem (c : Char) :
    py_lower_char (py_lower_char c) = py_lower_char c := by
  apply char_toNat_inj
  simp only [py_lower_char_toNat]
  split_ifs <;> omega

theorem not_isUpper_py_lower (c : Char) : ¬ isUpperChar (py_lower_char c) := by
  unfold isUpperChar
  rw [py_lower_char_toNat]
  split <;> omega

theorem isWsChar_py_lower (c : Char) : isWsChar (py_lower_char c) = isWsChar c := by
  unfold isWsChar
  rw [py_lower_char_toNat]
  split
  · next h => rw [decide_eq_decide]; omega
  · rfl

theorem isWsChar_toNat {c : Char} (h : isWsChar c = true) :
    c.toNat = 32 ∨ c.toNat = 9 ∨ c.toNat = 10 ∨ c.toNat = 13 ∨
      c.toNat = 11 ∨ c.toNat = 12 := by
  simpa [isWsChar] using h

theorem isDigitChar_toNat {c : Char} (h : isDigitChar c = true) :
    48 ≤ c.toNat ∧ c.toNat ≤ 57 := by
  simpa [isDigitChar] using h

theorem digitVal_le_of_digit {c : Char} (h : isDigitChar c = true) :
    digitVal c ≤ 9 := by
  have := isDigitChar_toNat h
  unfold digitVal
  omega

theorem not_word_of_ws {c : Char} (h : isWsChar c = true) :
    isWordChar c = false := by
  have := isWsChar_toNat h
  simp [isWordChar, isDigitChar]
  omega

theorem not_digit_of_ws {c : Char} (h : isWsChar c = true) :
    isDigitChar c = false := by
  have := isWsChar_toNat h
  simp [isDigitChar]
  omega

theorem ws_char_ne {c d : Char} (h : isWsChar c = true) (hd : isWsChar d = false) :
    c ≠ d := by
  intro he
  rw [he, hd] at h
  exact absurd h (by simp)

/-! ### Bounds for the digit readers and scanners -/

theorem read12_bound {s : List Char} {n : Nat} {r : List Char}
    {alt : Option (Nat × List Char)} (h : read12 s = some ((n, r), alt)) :
    n ≤ 99 ∧ ∀ m t, alt = some (m, t) → m ≤ 99 := by
  match s with
  | [] => simp [read12] at h
  | [a] =>
    simp only [read12] at h
    split at h
    · next ha =>
      have hv := digitVal_le_of_digit ha
      simp only [Option.some.injEq, Prod.mk.injEq] at h
      obtain ⟨⟨hn, _⟩, halt⟩ := h
      subst hn
      refine ⟨by omega, ?_⟩
      intro m t ht
      rw [← halt] at ht
      cases ht
    · cases h
  | a :: b :: s' =>
    simp only [read12] at h
    split at h
    · next ha =>
      have hva := digitVal_le_of_digit ha
      split at h
      · next hb =>
        have hvb := digitVal_le_of_digit hb
        simp only [Option.some.injEq, Prod.mk.injEq] at h
        obtain ⟨⟨hn, _⟩, halt⟩ := h
        subst hn
        refine ⟨by omega, ?_⟩
        intro m t ht
        rw [← halt] at ht
        simp only [Option.some.injEq, Prod.mk.injEq] at ht
        omega
      · simp only [Option.some.injEq, Prod.mk.injEq] at h
        obtain ⟨⟨hn, _⟩, halt⟩ := h
        subst hn
        refine ⟨by omega, ?_⟩
        intro m t ht
        rw [← halt] at ht
        cases ht
    · cases h

theorem with12_elim {α : Type} (P : α → Prop) {s : List Char}
    {k : Nat → List Char → Option α} {a : α}
    (hk : ∀ n r x, n ≤ 99 → k n r = some x → P x)
    (h : with12 s k = some a) : P a := by
  unfold with12 at h
  split at h
  · cases h
  · next ga heq =>
    obtain ⟨⟨n, r⟩, alt⟩ := ga
    obtain ⟨hg, halt⟩ := read12_bound heq
    simp only [] at h
    split at h
    · next x hx =>
      cases h
      exact hk _ _ _ hg hx
    · split at h
      · next v w =>
        exact hk _ _ _ (halt w.1 w.2 rfl) h
      · cases h

theorem read2_bound {s : List Char} {m : Nat} {r : List Char}
    (h : read2 s = some (m, r)) : m ≤ 99 := by
  match s with
  | [] => simp [read2] at h
  | [a] => simp [read2] at h
  | a :: b :: s =>
    simp only [read2] at h
    split at h
    · next hab =>
      simp only [Bool.and_eq_true] at hab
      have := digitVal_le_of_digit hab.1
      have := digitVal_le_of_digit hab.2
      cases h
      omega
    · cases h

theorem reSearch_elim {α : Type} {P : α → Prop}
    {f : Option Char → List Char → Option α}
    (hf : ∀ p s a, f p s = some a → P a) :
    ∀ p s a, reSearch f p s = some a → P a := by
  intro p s
  induction s generalizing p with
  | nil => intro a h; simp [reSearch] at h
  | cons c rest ih =>
    intro a h
    rw [reSearch] at h
    split at h
    · next heq => cases h; exact hf _ _ _ heq
    · exact ih _ _ h

theorem convertMer_le {h : Nat} (hb : h ≤ 99) (m : Option Meridiem) :
    convertMer h m ≤ 111 := by
  rcases m with _ | p
  · simp only [convertMer]; omega
  · cases p
    · simp only [convertMer]; split <;> omega
    · simp only [convertMer]; split <;> omega

theorem tryT1_bound {p : Option Char} {s : List Char} {a : Nat × Meridiem}
    (he : tryT1 p s = some a) : a.1 ≤ 99 := by
  unfold tryT1 at he
  split at he
  · refine with12_elim (fun x : Nat × Meridiem => x.1 ≤ 99) ?_ he
    intro n r x hn hk
    split at hk
    · split at hk
      · cases hk; exact hn
      · cases hk
    · cases hk
  · cases he

theorem tryT2_bound {p : Option Char} {s : List Char} {a : Nat × Option Meridiem}
    (he : tryT2 p s = some a) : a.1 ≤ 99 := by
  unfold tryT2 at he
  split at he
  · split at he
    · cases he
    · split at he
      · cases he
      · refine with12_elim (fun x : Nat × Option Meridiem => x.1 ≤ 99) ?_ he
        intro n r x hn hk
        rcases ho : tailOptMer r with _ | m'
        · rw [ho, Option.map_none'] at hk; cases hk
        · rw [ho, Option.map_some'] at hk; cases hk; exact hn
  · cases he

theorem tryT3_bound {p : Option Char} {s : List Char} {a : Nat × Option Meridiem}
    (he : tryT3 p s = some a) : a.1 ≤ 99 := by
  unfold tryT3 at he
  split at he
  · refine with12_elim (fun x : Nat × Option Meridiem => x.1 ≤ 99) ?_ he
    intro n r x hn hk
    rcases ho : tailGroupMer r with _ | m'
    · rw [ho, Option.map_none'] at hk; cases hk
    · rw [ho, Option.map_some'] at hk; cases hk; exact hn
  · cases he

theorem tryT4_bound {p : Option Char} {s : List Char} {a : Nat × Option Meridiem}
    (he : tryT4 p s = some a) : a.1 ≤ 99 := by
  unfold tryT4 at he
  split at he
  · split at he
    · cases he
    · refine with12_elim (fun x : Nat × Option Meridiem => x.1 ≤ 99) ?_ he
      intro n r x hn hk
      rcases ho : tailOptMer r with _ | m'
      · rw [ho, Option.map_none'] at hk; cases hk
      · rw [ho, Option.map_some'] at hk; cases hk; exact hn
  · cases he

theorem tryT5_bound {p : Option Char} {s : List Char}
    {a : (Nat × Nat) × Option Meridiem} (he : tryT5 p s = some a) :
    a.1.1 ≤ 99 ∧ a.1.2 ≤ 99 := by
  unfold tryT5 at he
  split at he
  · refine with12_elim
      (fun x : (Nat × Nat) × Option Meridiem => x.1.1 ≤ 99 ∧ x.1.2 ≤ 99) ?_ he
    intro n r x hn hk
    split at hk
    · split at hk
      · next mr hr2 =>
        have hmnt := read2_bound hr2
        rcases ho : tailOptMer _ with _ | m'
        · rw [ho, Option.map_none'] at hk; cases hk
        · rw [ho, Option.map_some'] at hk; cases hk; exact ⟨hn, hmnt⟩
      · cases hk
    · cases hk
  · cases he

theorem tryT6_bound {p : Option Char} {s : List Char}
    {a : (Nat × Nat) × Option Meridiem} (he : tryT6 p s = some a) :
    a.1.1 ≤ 99 ∧ a.1.2 ≤ 99 := by
  unfold tryT6 at he
  split at he
  · refine with12_elim
      (fun x : (Nat × Nat) × Option Meridiem => x.1.1 ≤ 99 ∧ x.1.2 ≤ 99) ?_ he
    intro n r x hn hk
    split at hk
    · split at hk
      · next mr hr2 =>
        have hmnt := read2_bound hr2
        rcases ho : tailGroupMer _ with _ | m'
        · rw [ho, Option.map_none'] at hk; cases hk
        · rw [ho, Option.map_some'] at hk; cases hk; exact ⟨hn, hmnt⟩
      · cases hk
    · cases hk
  · cases he

theorem tryT7_bound {p : Option Char} {s : List Char}
    {a : (Nat × Nat) × Option Meridiem} (he : tryT7 p s = some a) :
    a.1.1 ≤ 99 ∧ a.1.2 ≤ 99 := by
  unfold tryT7 at he
  split at he
  · split at he
    · cases he
    · refine with12_elim
        (fun x : (Nat × Nat) × Option Meridiem => x.1.1 ≤ 99 ∧ x.1.2 ≤ 99) ?_ he
      intro n r x hn hk
      split at hk
      · split at hk
        · next mr hr2 =>
          have hmnt := read2_bound hr2
          rcases ho : tailOptMer _ with _ | m'
          · rw [ho, Option.map_none'] at hk; cases hk
          · rw [ho, Option.map_some'] at hk; cases hk; exact ⟨hn, hmnt⟩
        · cases hk
      · cases hk
  · cases he

theorem tryR1_bound {p : Option Char} {s : List Char} {a : Nat × Meridiem}
    (he : tryR1 p s = some a) : a.1 ≤ 99 := by
  unfold tryR1 at he
  split at he
  · cases he
  · split at he
    · refine with12_elim (fun x : Nat × Meridiem => x.1 ≤ 99) ?_ he
      intro n r x hn hk
      rcases ho : readMer (trimLeft r) with _ | m'
      · rw [ho, Option.map_none'] at hk; cases hk
      · rw [ho, Option.map_some'] at hk; cases hk; exact hn
    · cases he

theorem tryR2_bound {p : Option Char} {s : List Char} {a : Nat × Meridiem}
    (he : tryR2 p s = some a) : a.1 ≤ 99 := by
  unfold tryR2 at he
  split at he
  · cases he
  · split at he
    · cases he
    · split at he
      · cases he
      · split at he
        · cases he
        · refine with12_elim (fun x : Nat × Meridiem => x.1 ≤ 99) ?_ he
          intro n r x hn hk
          rcases ho : readMer (trimLeft r) with _ | m'
          · rw [ho, Option.map_none'] at hk; cases hk
          · rw [ho, Option.map_some'] at hk; cases hk; exact hn

theorem tryR3_bound {p : Option Char} {s : List Char} {a : (Nat × Nat) × Meridiem}
    (he : tryR3 p s = some a) : a.1.1 ≤ 99 ∧ a.1.2 ≤ 99 := by
  unfold tryR3 at he
  refine with12_elim
    (fun x : (Nat × Nat) × Meridiem => x.1.1 ≤ 99 ∧ x.1.2 ≤ 99) ?_ he
  intro n r x hn hk
  split at hk
  · refine with12_elim
      (fun y : (Nat × Nat) × Meridiem => y.1.1 ≤ 99 ∧ y.1.2 ≤ 99) ?_ hk
    intro n2 r2 y hn2 hk2
    rcases ho : readMer (trimLeft r2) with _ | m'
    · rw [ho, Option.map_none'] at hk2; cases hk2
    · rw [ho, Option.map_some'] at hk2; cases hk2; exact ⟨hn, hn2⟩
  · cases hk

theorem tryR4_bound {p : Option Char} {s : List Char} {a : (Nat × Nat) × Meridiem}
    (he : tryR4 p s = some a) : a.1.1 ≤ 99 ∧ a.1.2 ≤ 99 := by
  unfold tryR4 at he
  refine with12_elim
    (fun x : (Nat × Nat) × Meridiem => x.1.1 ≤ 99 ∧ x.1.2 ≤ 99) ?_ he
  intro n r x hn hk
  split at hk
  · cases hk
  · split at hk
    · cases hk
    · split at hk
      · cases hk
      · refine with12_elim
          (fun y : (Nat × Nat) × Meridiem => y.1.1 ≤ 99 ∧ y.1.2 ≤ 99) ?_ hk
        intro n2 r2 y hn2 hk2
        rcases ho : readMer (trimLeft r2) with _ | m'
        · rw [ho, Option.map_none'] at hk2; cases hk2
        · rw [ho, Option.map_some'] at hk2; cases hk2; exact ⟨hn, hn2⟩

theorem tryR5_bound {p : Option Char} {s : List Char}
    {a : (Nat × Nat) × (Nat × Nat) × Option Meridiem} (he : tryR5 p s = some a) :
    a.1.1 ≤ 99 ∧ a.1.2 ≤ 99 ∧ a.2.1.1 ≤ 99 ∧ a.2.1.2 ≤ 99 := by
  unfold tryR5 at he
  refine with12_elim (fun x : (Nat × Nat) × (Nat × Nat) × Option Meridiem =>
    x.1.1 ≤ 99 ∧ x.1.2 ≤ 99 ∧ x.2.1.1 ≤ 99 ∧ x.2.1.2 ≤ 99) ?_ he
  intro n r x hn hk
  split at hk
  · split at hk
    · cases hk
    · next sm2 hr2 =>
      have hsm := read2_bound hr2
      split at hk
      · refine with12_elim (fun y : (Nat × Nat) × (Nat × Nat) × Option Meridiem =>
          y.1.1 ≤ 99 ∧ y.1.2 ≤ 99 ∧ y.2.1.1 ≤ 99 ∧ y.2.1.2 ≤ 99) ?_ hk
        intro n2 r2 y hn2 hk2
        split at hk2
        · split at hk2
          · cases hk2
          · next em2 hr4 =>
            have hem := read2_bound hr4
            cases hk2
            exact ⟨hn, hsm, hn2, hem⟩
        · cases hk2
      · cases hk
  · cases hk

theorem extract_explicit_time_bound {s : String} {h m : Nat}
    (he : extract_explicit_time s = some (h, m)) : h ≤ 111 ∧ m ≤ 99 := by
  simp only [extract_explicit_time] at he
  split at he
  · simp only [Option.some.injEq, Prod.mk.injEq] at he
    obtain ⟨hh, hm⟩ := he
    subst hh hm
    exact ⟨by omega, by omega⟩
  · split at he
    · simp only [Option.some.injEq, Prod.mk.injEq] at he
      obtain ⟨hh, hm⟩ := he
      subst hh hm
      exact ⟨by omega, by omega⟩
    · split at he
      · simp only [Option.some.injEq, Prod.mk.injEq] at he
        obtain ⟨hh, hm⟩ := he
        subst hh hm
        exact ⟨by omega, by omega⟩
      · split at he
        · next hv mv heq =>
          have hb := reSearch_elim (fun p t a ha => tryT1_bound ha) none _ _ heq
          simp only [Option.some.injEq, Prod.mk.injEq] at he
          obtain ⟨hh, hm⟩ := he
          subst hh hm
          exact ⟨convertMer_le hb _, by omega⟩
        · split at he
          · next hv mv heq =>
            have hb := reSearch_elim (fun p t a ha => tryT2_bound ha) none _ _ heq
            simp only [Option.some.injEq, Prod.mk.injEq] at he
            obtain ⟨hh, hm⟩ := he
            subst hh hm
            exact ⟨convertMer_le hb _, by omega⟩
          · split at he
            · next hv mv heq =>
              have hb := reSearch_elim (fun p t a ha => tryT3_bound ha) none _ _ heq
              simp only [Option.some.injEq, Prod.mk.injEq] at he
              obtain ⟨hh, hm⟩ := he
              subst hh hm
              exact ⟨convertMer_le hb _, by omega⟩
            · split at he
              · next hv mv heq =>
                have hb := reSearch_elim (fun p t a ha => tryT4_bound ha) none _ _ heq
                simp only [Option.some.injEq, Prod.mk.injEq] at he
                obtain ⟨hh, hm⟩ := he
                subst hh hm
                exact ⟨convertMer_le hb _, by omega⟩
              · split at he
                · next hv mv heq =>
                  have hb := reSearch_elim (fun p t a ha => tryT5_bound ha) none _ _ heq
                  simp only [Option.some.injEq, Prod.mk.injEq] at he
                  obtain ⟨hh, hm⟩ := he
                  subst hh hm
                  exact ⟨convertMer_le hb.1 _, hb.2⟩
                · split at he
                  · next hv mv heq =>
                    have hb := reSearch_elim (fun p t a ha => tryT6_bound ha) none _ _ heq
                    simp only [Option.some.injEq, Prod.mk.injEq] at he
                    obtain ⟨hh, hm⟩ := he
                    subst hh hm
                    exact ⟨convertMer_le hb.1 _, hb.2⟩
                  · split at he
                    · next hv mv heq =>
                      have hb := reSearch_elim (fun p t a ha => tryT7_bound ha) none _ _ heq
                      simp only [Option.some.injEq, Prod.mk.injEq] at he
                      obtain ⟨hh, hm⟩ := he
                      subst hh hm
                      exact ⟨convertMer_le hb.1 _, hb.2⟩
                    · cases he

theorem extract_time_range_bound {s : String} {base : PyDateTime}
    (hbase : base.hour ≤ 23 ∧ base.minute ≤ 59) {sh sm eh em : Nat}
    (he : extract_time_range s base = some ((sh, sm), (eh, em))) :
    sh ≤ 111 ∧ sm ≤ 99 ∧ eh ≤ 111 ∧ em ≤ 99 := by
  unfold extract_time_range at he
  rcases hr : range_match (pyLowerList s.data) with _ | cap
  · rw [hr] at he; cases he
  · rw [hr, Option.map_some'] at he
    have hcap : (∀ x p, cap = .rnow x p → x ≤ 99) ∧
        (∀ x y p, cap = .r12 x y p → x ≤ 99 ∧ y ≤ 99) ∧
        (∀ x x2 y y2 p, cap = .r24 x x2 y y2 p →
          x ≤ 99 ∧ x2 ≤ 99 ∧ y ≤ 99 ∧ y2 ≤ 99) := by
      unfold range_match at hr
      split at hr
      · next v heq =>
        have hb := reSearch_elim (fun p t a ha => tryR1_bound ha) none _ _ heq
        cases hr
        refine ⟨?_, ?_, ?_⟩ <;> intro x
        · intro p hx; cases hx; exact hb
        · intro y p hx; cases hx
        · intro x2 y y2 p hx; cases hx
      · split at hr
        · next v heq =>
          have hb := reSearch_elim (fun p t a ha => tryR2_bound ha) none _ _ heq
          cases hr
          refine ⟨?_, ?_, ?_⟩ <;> intro x
          · intro p hx; cases hx; exact hb
          · intro y p hx; cases hx
          · intro x2 y y2 p hx; cases hx
        · split at hr
          · next v heq =>
            have hb := reSearch_elim (fun p t a ha => tryR3_bound ha) none _ _ heq
            cases hr
            refine ⟨?_, ?_, ?_⟩ <;> intro x
            · intro p hx; cases hx
            · intro y p hx; cases hx; exact hb
            · intro x2 y y2 p hx; cases hx
          · split at hr
            · next v heq =>
              have hb := reSearch_elim (fun p t a ha => tryR4_bound ha) none _ _ heq
              cases hr
              refine ⟨?_, ?_, ?_⟩ <;> intro x
              · intro p hx; cases hx
              · intro y p hx; cases hx; exact hb
              · intro x2 y y2 p hx; cases hx
            · split at hr
              · next v heq =>
                have hb := reSearch_elim (fun p t a ha => tryR5_bound ha) none _ _ heq
                cases hr
                refine ⟨?_, ?_, ?_⟩ <;> intro x
                · intro p hx; cases hx
                · intro y p hx; cases hx
                · intro x2 y y2 p hx; cases hx; exact hb
              · cases hr
    rcases cap with ⟨x, p⟩ | ⟨x, y, p⟩ | ⟨x, x2, y, y2, p⟩
    · have hx := hcap.1 x p rfl
      simp only [interpretRange, Option.some.injEq, Prod.mk.injEq] at he
      obtain ⟨⟨h1, h2⟩, h3, h4⟩ := he
      subst h1 h2 h3 h4
      exact ⟨by omega, by omega, convertMer_le hx _, by omega⟩
    · have hx := hcap.2.1 x y p rfl
      simp only [interpretRange, Option.some.injEq, Prod.mk.injEq] at he
      obtain ⟨⟨h1, h2⟩, h3, h4⟩ := he
      subst h1 h2 h3 h4
      exact ⟨convertMer_le hx.1 _, by omega, convertMer_le hx.2 _, by omega⟩
    · have hx := hcap.2.2 x x2 y y2 p rfl
      rcases p with _ | mp
      · simp only [interpretRange, Option.some.injEq, Prod.mk.injEq] at he
        obtain ⟨⟨h1, h2⟩, h3, h4⟩ := he
        subst h1 h2 h3 h4
        exact ⟨by omega, by omega, by omega, by omega⟩
      · cases mp
        · simp only [interpretRange, Option.some.injEq, Prod.mk.injEq] at he
          obtain ⟨⟨h1, h2⟩, h3, h4⟩ := he
          subst h1 h2 h3 h4
          refine ⟨?_, by omega, ?_, by omega⟩ <;> split <;> omega
        · simp only [interpretRange, Option.some.injEq, Prod.mk.injEq] at he
          obtain ⟨⟨h1, h2⟩, h3, h4⟩ := he
          subst h1 h2 h3 h4
          refine ⟨?_, by omega, ?_, by omega⟩ <;> split <;> omega

theorem matchLit_cons_ne {w : List Char} {c d : Char} {s : List Char}
    (h : d ≠ c) : matchLit (c :: w) (d :: s) = none := by
  simp [matchLit, h]

theorem read12_none_of_not_digit {c : Char} {r : List Char}
    (h : isDigitChar c = false) : read12 (c :: r) = none := by
  match r with
  | [] => simp [read12, h]
  | b :: s => simp [read12, h]

theorem with12_none_of_not_digit {α : Type} {c : Char} {r : List Char}
    {k : Nat → List Char → Option α} (h : isDigitChar c = false) :
    with12 (c :: r) k = none := by
  unfold with12
  rw [read12_none_of_not_digit h]

theorem reSearch_none {α : Type} {f : Option Char → List Char → Option α}
    (hf : ∀ p c r, isWsChar c = true → f p (c :: r) = none) :
    ∀ p t, (∀ c ∈ t, isWsChar c = true) → reSearch f p t = none := by
  intro p t
  induction t generalizing p with
  | nil => intro _; rfl
  | cons c rest ih =>
    intro hws
    rw [reSearch, hf p c rest (hws c (by simp))]
    exact ih _ (fun d hd => hws d (by simp [hd]))

theorem tryR1_ws {p : Option Char} {c : Char} {r : List Char}
    (h : isWsChar c = true) : tryR1 p (c :: r) = none := by
  have hm : matchLit "now".data (c :: r) = none := by
    rw [show "now".data = 'n' :: 'o' :: 'w' :: [] from rfl]
    exact matchLit_cons_ne (ws_char_ne h (by decide))
  unfold tryR1
  rw [hm]

theorem tryR2_ws {p : Option Char} {c : Char} {r : List Char}
    (h : isWsChar c = true) : tryR2 p (c :: r) = none := by
  have hm : matchLit "now".data (c :: r) = none := by
    rw [show "now".data = 'n' :: 'o' :: 'w' :: [] from rfl]
    exact matchLit_cons_ne (ws_char_ne h (by decide))
  unfold tryR2
  rw [hm]

theorem tryR3_ws {p : Option Char} {c : Char} {r : List Char}
    (h : isWsChar c = true) : tryR3 p (c :: r) = none := by
  unfold tryR3
  exact with12_none_of_not_digit (not_digit_of_ws h)

theorem tryR4_ws {p : Option Char} {c : Char} {r : List Char}
    (h : isWsChar c = true) : tryR4 p (c :: r) = none := by
  unfold tryR4
  exact with12_none_of_not_digit (not_digit_of_ws h)

theorem tryR5_ws {p : Option Char} {c : Char} {r : List Char}
    (h : isWsChar c = true) : tryR5 p (c :: r) = none := by
  unfold tryR5
  exact with12_none_of_not_digit (not_digit_of_ws h)

theorem range_match_ws_none {t : List Char}
    (hws : ∀ c ∈ t, isWsChar c = true) : range_match t = none := by
  unfold range_match
  rw [reSearch_none (fun p c r hc => tryR1_ws hc) none t hws,
    reSearch_none (fun p c r hc => tryR2_ws hc) none t hws,
    reSearch_none (fun p c r hc => tryR3_ws hc) none t hws,
    reSearch_none (fun p c r hc => tryR4_ws hc) none t hws,
    reSearch_none (fun p c r hc => tryR5_ws hc) none t hws]

theorem trimLeft_eq_nil_iff {l : List Char} :
    trimLeft l = [] ↔ ∀ c ∈ l, isWsChar c = true := by
  unfold trimLeft
  exact List.dropWhile_eq_nil_iff

theorem pyStrip_eq_nil_iff {l : List Char} :
    pyStrip l = [] ↔ ∀ c ∈ l, isWsChar c = true := by
  unfold pyStrip trimRight
  constructor
  · intro h c hc
    have h1 : (trimLeft l).reverse.dropWhile isWsChar = [] := by
      have := congrArg List.reverse h
      simpa using this
    have h2 : ∀ c ∈ (trimLeft l).reverse, isWsChar c = true :=
      List.dropWhile_eq_nil_iff.mp h1
    have h3 : ∀ c ∈ trimLeft l, isWsChar c = true := by
      intro d hd
      exact h2 d (by simpa using hd)
    have h4 : l = l.takeWhile isWsChar ++ trimLeft l :=
      (List.takeWhile_append_dropWhile isWsChar l).symm
    rcases (List.mem_append.mp (h4 ▸ hc)) with hc1 | hc2
    · exact List.mem_takeWhile_imp hc1
    · exact h3 c hc2
  · intro h
    have : trimLeft l = [] := trimLeft_eq_nil_iff.mpr h
    rw [this]
    rfl

theorem pyLowerList_ws {l : List Char} (h : ∀ c ∈ l, isWsChar c = true) :
    ∀ c ∈ pyLowerList l, isWsChar c = true := by
  intro c hc
  unfold pyLowerList at hc
  obtain ⟨d, hd, rfl⟩ := List.mem_map.mp hc
  rw [isWsChar_py_lower]
  exact h d hd

theorem extract_time_range_of_ws {s : String} {base : PyDateTime}
    (h : ∀ c ∈ s.data, isWsChar c = true) : extract_time_range s base = none := by
  unfold extract_time_range
  rw [range_match_ws_none (pyLowerList_ws h)]
  rfl

/-! ### Run decomposition lemmas for `normalize_text` -/

theorem map_eq_self_of_mem {α : Type} {f : α → α} :
    ∀ {l : List α}, (∀ x ∈ l, f x = x) → l.map f = l := by
  intro l
  induction l with
  | nil => intro _; rfl
  | cons a t ih =>
    intro h
    simp only [List.map_cons, h a (by simp), ih (fun x hx => h x (by simp [hx]))]

theorem flatten_splitRuns (l : List Char) : (splitRuns l).flatten = l := by
  induction l with
  | nil => rfl
  | cons c cs ih =>
    simp only [splitRuns]
    split
    · next hs =>
      rw [hs] at ih
      simp only [List.flatten_nil] at ih
      simp [← ih]
    · next rs hs =>
      rw [hs] at ih
      simp only [List.flatten_cons, List.nil_append] at ih
      simp [List.flatten_cons, ih]
    · next d r' rs hs =>
      rw [hs] at ih
      simp only [List.flatten_cons, List.cons_append] at ih
      split
      · simp only [List.flatten_cons, List.cons_append]
        rw [ih]
      · simp only [List.flatten_cons, List.singleton_append, List.cons_append]
        rw [ih]
        simp

theorem chunks_ne_nil {ob : Option Bool} {C : List (List Char)}
    (h : Chunks ob C) : ∀ r ∈ C, r ≠ [] := by
  induction h with
  | nil => intro r hr; cases hr
  | cons ob b r rs hne hall hob hrest ih =>
    intro x hx
    rcases List.mem_cons.mp hx with rfl | hx2
    · exact hne
    · exact ih x hx2

theorem chunks_splitRuns (l : List Char) : Chunks none (splitRuns l) := by
  induction l with
  | nil => exact Chunks.nil none
  | cons c cs ih =>
    simp only [splitRuns]
    split
    · exact Chunks.cons none (isWordChar c) [c] [] (by simp)
        (by intro x hx; simp at hx; rw [hx]) (by simp) (Chunks.nil _)
    · next rs hs =>
      rw [hs] at ih
      cases ih with
      | cons _ b _ _ hne _ _ _ => exact absurd rfl hne
    · next d r' rs hs =>
      rw [hs] at ih
      cases ih with
      | cons _ b _ _ hne hall hob hrest =>
        split
        · next hflag =>
          refine Chunks.cons none b (c :: d :: r') rs (by simp) ?_ (by simp) hrest
          intro x hx
          rcases List.mem_cons.mp hx with rfl | hx2
          · rw [hflag]; exact hall d (by simp)
          · exact hall x hx2
        · next hflag =>
          refine Chunks.cons none (isWordChar c) [c] ((d :: r') :: rs) (by simp)
            (by intro x hx; simp at hx; rw [hx]) (by simp) ?_
          refine Chunks.cons (some (isWordChar c)) b (d :: r') rs hne hall ?_ hrest
          intro hcontra
          apply hflag
          have : isWordChar c = b := by
            injection hcontra
          rw [this]
          exact (hall d (by simp)).symm

theorem splitRuns_cons_shape (c : Char) (t : List Char) :
    ∃ x rs, splitRuns (c :: t) = (c :: x) :: rs := by
  simp only [splitRuns]
  split
  · exact ⟨[], [], rfl⟩
  · next rs _ => exact ⟨[], rs, rfl⟩
  · next d r' rs _ =>
    split
    · exact ⟨d :: r', rs, rfl⟩
    · exact ⟨[], (d :: r') :: rs, rfl⟩

theorem splitRuns_append_run {b : Bool} :
    ∀ {r : List Char}, r ≠ [] → (∀ c ∈ r, isWordChar c = b) →
      ∀ {t : List Char}, (∀ d, t.head? = some d → isWordChar d = !b) →
      splitRuns (r ++ t) = r :: splitRuns t := by
  intro r
  induction r with
  | nil => intro h; exact absurd rfl h
  | cons c r' ih =>
    intro _ hall t ht
    rcases r' with _ | ⟨c2, r''⟩
    · simp only [List.cons_append, List.nil_append]
      rcases t with _ | ⟨d, t'⟩
      · rfl
      · have hd : isWordChar d = !b := ht d rfl
        have hc : isWordChar c = b := hall c (by simp)
        obtain ⟨x, rs, hshape⟩ := splitRuns_cons_shape d t'
        conv_lhs => rw [splitRuns, hshape]
        dsimp only
        rw [if_neg (by rw [hc, hd]; cases b <;> simp), hshape]
    · have hall' : ∀ x ∈ c2 :: r'', isWordChar x = b :=
        fun x hx => hall x (by simp [hx])
      have ih2 := ih (by simp) hall' ht
      simp only [List.cons_append] at ih2 ⊢
      conv_lhs => rw [splitRuns, ih2]
      dsimp only
      rw [if_pos (by rw [hall c (by simp), hall c2 (by simp)])]

theorem splitRuns_flatten {ob : Option Bool} {C : List (List Char)}
    (h : Chunks ob C) : splitRuns C.flatten = C := by
  induction h with
  | nil => rfl
  | cons ob b r rs hne hall hob hrest ih =>
    simp only [List.flatten_cons]
    rw [splitRuns_append_run hne hall ?_, ih]
    intro d hd
    cases hrest with
    | nil => simp at hd
    | cons _ b2 r2 rs2 hne2 hall2 hob2 _ =>
      have hb2 : b2 = !b := by
        cases b <;> cases b2 <;> simp_all
      rw [List.flatten_cons] at hd
      rcases r2 with _ | ⟨e, r2'⟩
      · exact absurd rfl hne2
      · simp only [List.cons_append, List.head?_cons, Option.some.injEq] at hd
        rw [← hd, ← hb2]
        exact hall2 e (by simp)

theorem substRunFun_eq (run : List Char) :
    substRunFun run =
      if run = "tmr".data then "tomorrow".data
      else if run = "yest".data then "yesterday".data
      else if run = "tdy".data then "today".data
      else if run = "tn".data then "tonight".data
      else run := by
  unfold substRunFun
  by_cases h1 : run = "tmr".data
  · subst h1; decide
  · simp only [if_neg h1]
    by_cases h2 : run = "yest".data
    · subst h2; decide
    · simp only [if_neg h2]
      by_cases h3 : run = "tdy".data
      · subst h3; decide
      · simp only [if_neg h3]

theorem substRunFun_cases (run : List Char) :
    substRunFun run = "tomorrow".data ∨ substRunFun run = "yesterday".data ∨
      substRunFun run = "today".data ∨ substRunFun run = "tonight".data ∨
      substRunFun run = run := by
  rw [substRunFun_eq]
  split_ifs <;> simp

theorem substRunFun_ne_abbrev (run : List Char) :
    substRunFun run ≠ "tmr".data ∧ substRunFun run ≠ "yest".data ∧
      substRunFun run ≠ "tdy".data ∧ substRunFun run ≠ "tn".data := by
  rw [substRunFun_eq]
  split_ifs with h1 h2 h3 h4
  · exact ⟨by decide, by decide, by decide, by decide⟩
  · exact ⟨by decide, by decide, by decide, by decide⟩
  · exact ⟨by decide, by decide, by decide, by decide⟩
  · exact ⟨by decide, by decide, by decide, by decide⟩
  · exact ⟨h1, h2, h3, h4⟩

theorem substRunFun_ne_nil {run : List Char} (h : run ≠ []) :
    substRunFun run ≠ [] := by
  rcases substRunFun_cases run with h1 | h1 | h1 | h1 | h1 <;> rw [h1]
  · decide
  · decide
  · decide
  · decide
  · exact h

theorem mem_substRunFun {c : Char} {run : List Char} (h : c ∈ substRunFun run) :
    c ∈ run ∨ c ∈ "tomorrow".data ∨ c ∈ "yesterday".data ∨ c ∈ "today".data ∨
      c ∈ "tonight".data := by
  rcases substRunFun_cases run with h1 | h1 | h1 | h1 | h1 <;> rw [h1] at h <;> tauto

theorem substRunFun_flag {run : List Char} {b : Bool} (hne : run ≠ [])
    (hall : ∀ c ∈ run, isWordChar c = b) :
    ∀ c ∈ substRunFun run, isWordChar c = b := by
  rw [substRunFun_eq]
  split_ifs with h1 h2 h3 h4
  · subst h1
    have hb : isWordChar 't' = b := hall 't' (by decide)
    intro c hc
    rw [← hb]
    revert hc
    revert c
    decide
  · subst h2
    have hb : isWordChar 'y' = b := hall 'y' (by decide)
    intro c hc
    rw [← hb]
    revert hc
    revert c
    decide
  · subst h3
    have hb : isWordChar 't' = b := hall 't' (by decide)
    intro c hc
    rw [← hb]
    revert hc
    revert c
    decide
  · subst h4
    have hb : isWordChar 't' = b := hall 't' (by decide)
    intro c hc
    rw [← hb]
    revert hc
    revert c
    decide
  · exact hall

theorem chunks_map_subst1 (w rep : List Char) (hwne : w ≠ [])
    (hw : ∀ c ∈ w, isWordChar c = true) (hrne : rep ≠ [])
    (hr : ∀ c ∈ rep, isWordChar c = true) {ob : Option Bool}
    {C : List (List Char)} (h : Chunks ob C) :
    Chunks ob (C.map (fun run => if run = w then rep else run)) := by
  induction h with
  | nil => exact Chunks.nil _
  | cons ob b r rs hne hall hob hrest ih =>
    simp only [List.map_cons]
    by_cases hrw : r = w
    · rw [if_pos hrw]
      have hb : b = true := by
        rcases r with _ | ⟨c0, r'⟩
        · exact absurd rfl hne
        · have hf1 := hall c0 (by simp)
          have hf2 := hw c0 (hrw ▸ List.mem_cons_self c0 r')
          rw [hf1] at hf2
          exact hf2
      exact Chunks.cons _ b rep _ hrne (fun c hc => by rw [hr c hc, hb]) hob ih
    · rw [if_neg hrw]
      exact Chunks.cons _ b r _ hne hall hob ih

theorem normalize_data_eq (s : String) :
    (normalize_text s).data =
      ((splitRuns (replaceAtSign (pyStrip (pyLowerList s.data)))).map
        substRunFun).flatten := by
  unfold normalize_text
  simp only [abbreviations, List.foldl_cons, List.foldl_nil]
  generalize replaceAtSign (pyStrip (pyLowerList s.data)) = x
  have c0 : Chunks none (splitRuns x) := chunks_splitRuns x
  have c1 := chunks_map_subst1 "tmr".data "tomorrow".data
    (by decide) (by decide) (by decide) (by decide) c0
  have c2 := chunks_map_subst1 "yest".data "yesterday".data
    (by decide) (by decide) (by decide) (by decide) c1
  have c3 := chunks_map_subst1 "tdy".data "today".data
    (by decide) (by decide) (by decide) (by decide) c2
  show substWord "tn".data "tonight".data (substWord "tdy".data "today".data
    (substWord "yest".data "yesterday".data
      (substWord "tmr".data "tomorrow".data x))) = _
  unfold substWord
  rw [splitRuns_flatten c1, splitRuns_flatten c2, splitRuns_flatten c3]
  simp only [List.map_map]
  rfl

theorem chunks_map_substRunFun {ob : Option Bool} {C : List (List Char)}
    (h : Chunks ob C) : Chunks ob (C.map substRunFun) := by
  induction h with
  | nil => exact Chunks.nil _
  | cons ob b r rs hne hall hob hrest ih =>
    simp only [List.map_cons]
    exact Chunks.cons ob b (substRunFun r) _ (substRunFun_ne_nil hne)
      (substRunFun_flag hne hall) hob ih

theorem splitRuns_normalize (s : String) :
    splitRuns (normalize_text s).data =
      (splitRuns (replaceAtSign (pyStrip (pyLowerList s.data)))).map substRunFun := by
  rw [normalize_data_eq]
  exact splitRuns_flatten (chunks_map_substRunFun (chunks_splitRuns _))

theorem mem_trimLeft {c : Char} {l : List Char} (h : c ∈ trimLeft l) : c ∈ l :=
  List.Sublist.mem h (List.dropWhile_sublist _)

theorem mem_trimRight {c : Char} {l : List Char} (h : c ∈ trimRight l) : c ∈ l := by
  unfold trimRight at h
  rw [List.mem_reverse] at h
  have := List.Sublist.mem h (List.dropWhile_sublist _)
  simpa using this

theorem mem_pyStrip {c : Char} {l : List Char} (h : c ∈ pyStrip l) : c ∈ l :=
  mem_trimLeft (mem_trimRight h)

theorem mem_replaceAtSign {c : Char} {l : List Char} (h : c ∈ replaceAtSign l) :
    (c ∈ l ∧ c ≠ '@') ∨ c = 'a' ∨ c = 't' := by
  unfold replaceAtSign at h
  obtain ⟨x, hx, hcx⟩ := List.mem_flatten.mp h
  obtain ⟨d, hd, rfl⟩ := List.mem_map.mp hx
  by_cases hat : d = '@'
  · rw [if_pos hat] at hcx
    simp only [List.mem_cons, List.not_mem_nil, or_false] at hcx
    rcases hcx with h1 | h1
    · right; left; exact h1
    · right; right; exact h1
  · rw [if_neg hat] at hcx
    simp only [List.mem_singleton] at hcx
    subst hcx
    exact Or.inl ⟨hd, hat⟩

theorem mem_normalize {c : Char} {s : String} (h : c ∈ (normalize_text s).data) :
    ((∃ d ∈ s.data, c = py_lower_char d) ∧ c ≠ '@') ∨ c ∈ "tomorrow".data ∨
      c ∈ "yesterday".data ∨ c ∈ "today".data ∨ c ∈ "tonight".data ∨
      c = 'a' ∨ c = 't' := by
  rw [normalize_data_eq] at h
  obtain ⟨x, hx, hcx⟩ := List.mem_flatten.mp h
  obtain ⟨run, hrun, rfl⟩ := List.mem_map.mp hx
  rcases mem_substRunFun hcx with hin | hin | hin | hin | hin
  · have hstep : c ∈ replaceAtSign (pyStrip (pyLowerList s.data)) := by
      have : c ∈ (splitRuns (replaceAtSign (pyStrip (pyLowerList s.data)))).flatten :=
        List.mem_flatten.mpr ⟨run, hrun, hin⟩
      rwa [flatten_splitRuns] at this
    rcases mem_replaceAtSign hstep with ⟨hmem, hat⟩ | h1 | h1
    · obtain ⟨d, hd, rfl⟩ := List.mem_map.mp (mem_pyStrip hmem)
      exact Or.inl ⟨⟨d, hd, rfl⟩, hat⟩
    · exact Or.inr (Or.inr (Or.inr (Or.inr (Or.inr (Or.inl h1)))))
    · exact Or.inr (Or.inr (Or.inr (Or.inr (Or.inr (Or.inr h1)))))
  · exact Or.inr (Or.inl hin)
  · exact Or.inr (Or.inr (Or.inl hin))
  · exact Or.inr (Or.inr (Or.inr (Or.inl hin)))
  · exact Or.inr (Or.inr (Or.inr (Or.inr (Or.inl hin))))

theorem normalize_lower_stable {s : String} :
    ∀ c ∈ (normalize_text s).data, py_lower_char c = c := by
  intro c hc
  rcases mem_normalize hc with ⟨⟨d, _, rfl⟩, _⟩ | h1 | h1 | h1 | h1 | h1 | h1
  · exact py_lower_char_idem d
  · clear hc; revert h1; revert c; decide
  · clear hc; revert h1; revert c; decide
  · clear hc; revert h1; revert c; decide
  · clear hc; revert h1; revert c; decide
  · subst h1; decide
  · subst h1; decide

theorem py_lower_fixed_not_upper {c : Char} (h : py_lower_char c = c) :
    ¬ isUpperChar c := by
  intro hu
  unfold isUpperChar at hu
  have := py_lower_char_toNat c
  rw [h, if_pos hu] at this
  omega

theorem normalize_no_upper {s : String} : noUpperString (normalize_text s) := by
  intro c hc
  exact py_lower_fixed_not_upper (normalize_lower_stable c hc)

theorem normalize_no_at {s : String} :
    ∀ c ∈ (normalize_text s).data, c ≠ '@' := by
  intro c hc
  rcases mem_normalize hc with ⟨_, hat⟩ | h1 | h1 | h1 | h1 | h1 | h1
  · exact hat
  · clear hc; revert h1; revert c; decide
  · clear hc; revert h1; revert c; decide
  · clear hc; revert h1; revert c; decide
  · clear hc; revert h1; revert c; decide
  · subst h1; decide
  · subst h1; decide

theorem normalize_runs_not_abbrev {s : String} :
    ∀ run ∈ splitRuns (normalize_text s).data,
      run ≠ "tmr".data ∧ run ≠ "yest".data ∧ run ≠ "tdy".data ∧ run ≠ "tn".data := by
  intro run hrun
  rw [splitRuns_normalize] at hrun
  obtain ⟨x, _, rfl⟩ := List.mem_map.mp hrun
  exact substRunFun_ne_abbrev x

theorem map_if_eq_self {w rep : List Char} {C : List (List Char)}
    (h : ∀ run ∈ C, run ≠ w) :
    C.map (fun run => if run = w then rep else run) = C :=
  map_eq_self_of_mem (fun run hrun => if_neg (h run hrun))

theorem substWord_eq_self {w rep : List Char} {l : List Char}
    (h : ∀ run ∈ splitRuns l, run ≠ w) : substWord w rep l = l := by
  unfold substWord
  rw [map_if_eq_self h, flatten_splitRuns]

theorem replaceAtSign_eq_self {l : List Char} (h : ∀ c ∈ l, c ≠ '@') :
    replaceAtSign l = l := by
  unfold replaceAtSign
  induction l with
  | nil => rfl
  | cons c t ih =>
    simp only [List.map_cons, List.flatten_cons]
    rw [if_neg (h c (by simp))]
    simp only [List.singleton_append, List.cons.injEq, true_and]
    exact ih (fun d hd => h d (by simp [hd]))

theorem dropWhile_head_false {p : Char → Bool} :
    ∀ {l : List Char} {c : Char} {r : List Char},
      l.dropWhile p = c :: r → p c = false := by
  intro l
  induction l with
  | nil => intro c r h; cases h
  | cons a t ih =>
    intro c r h
    rw [List.dropWhile_cons] at h
    split at h
    · exact ih h
    · next hp =>
      cases h
      simpa using hp

theorem head?_trimRight {m : List Char} {c : Char} {r : List Char}
    (h : trimRight m = c :: r) : ∃ r2, m = c :: r2 := by
  unfold trimRight at h
  have h2 : m.reverse.dropWhile isWsChar = (c :: r).reverse := by
    have := congrArg List.reverse h
    simpa using this
  have h3 : m.reverse = m.reverse.takeWhile isWsChar ++ (c :: r).reverse := by
    rw [← h2, List.takeWhile_append_dropWhile]
  have h4 := congrArg List.reverse h3
  simp only [List.reverse_reverse, List.reverse_append, List.reverse_cons] at h4
  rw [List.append_assoc] at h4
  exact ⟨r ++ (m.reverse.takeWhile isWsChar).reverse, by simpa using h4⟩

theorem pyStrip_head {l : List Char} {c : Char} {r : List Char}
    (h : pyStrip l = c :: r) : isWsChar c = false := by
  unfold pyStrip at h
  obtain ⟨r2, hr2⟩ := head?_trimRight h
  exact dropWhile_head_false hr2

theorem pyStrip_last {l : List Char} {c : Char} {r : List Char}
    (h : (pyStrip l).reverse = c :: r) : isWsChar c = false := by
  unfold pyStrip trimRight at h
  rw [List.reverse_reverse] at h
  exact dropWhile_head_false h

theorem flatten_cons_head? {r : List Char} {rs : List (List Char)} (h : r ≠ []) :
    ((r :: rs).flatten).head? = r.head? := by
  rcases r with _ | ⟨c, t⟩
  · exact absurd rfl h
  · simp

theorem step1_head_nonws {s : String} {c : Char}
    (h : (replaceAtSign (pyStrip (pyLowerList s.data))).head? = some c) :
    isWsChar c = false := by
  rcases hs : pyStrip (pyLowerList s.data) with _ | ⟨d, t⟩
  · rw [hs] at h; cases h
  · rw [hs] at h
    have hd : isWsChar d = false := pyStrip_head hs
    unfold replaceAtSign at h
    simp only [List.map_cons, List.flatten_cons] at h
    by_cases hat : d = '@'
    · rw [if_pos hat] at h
      simp only [List.cons_append, List.head?_cons, Option.some.injEq] at h
      rw [← h]
      decide
    · rw [if_neg hat] at h
      simp only [List.singleton_append, List.head?_cons, Option.some.injEq] at h
      rw [← h]
      exact hd

theorem step1_last_nonws {s : String} {c : Char}
    (h : (replaceAtSign (pyStrip (pyLowerList s.data))).reverse.head? = some c) :
    isWsChar c = false := by
  unfold replaceAtSign at h
  rw [List.reverse_flatten, List.map_map, ← List.map_reverse] at h
  rcases hs : (pyStrip (pyLowerList s.data)).reverse with _ | ⟨d, t⟩
  · rw [hs] at h; cases h
  · rw [hs] at h
    have hd : isWsChar d = false := pyStrip_last hs
    simp only [List.map_cons] at h
    by_cases hat : d = '@'
    · rw [flatten_cons_head? (by rw [Function.comp_apply, if_pos hat]; decide)] at h
      rw [Function.comp_apply, if_pos hat] at h
      have hc : c ∈ (['a', 't'] : List Char).reverse := List.mem_of_mem_head? h
      have : c = 't' ∨ c = 'a' := by
        simpa using hc
      rcases this with rfl | rfl <;> decide
    · rw [flatten_cons_head? (by rw [Function.comp_apply, if_neg hat]; simp)] at h
      rw [Function.comp_apply, if_neg hat] at h
      simp only [List.reverse_cons, List.reverse_nil, List.nil_append,
        List.head?_cons, Option.some.injEq] at h
      rw [← h]
      exact hd

theorem normalize_head_nonws {s : String} {c : Char}
    (h : (normalize_text s).data.head? = some c) : isWsChar c = false := by
  rw [normalize_data_eq] at h
  rcases hC : splitRuns (replaceAtSign (pyStrip (pyLowerList s.data))) with _ | ⟨x1, C'⟩
  · rw [hC] at h; cases h
  · rw [hC] at h
    simp only [List.map_cons] at h
    have hx1ne : x1 ≠ [] := chunks_ne_nil (chunks_splitRuns _) x1 (by rw [hC]; simp)
    rw [flatten_cons_head? (substRunFun_ne_nil hx1ne)] at h
    rcases substRunFun_cases x1 with h1 | h1 | h1 | h1 | h1 <;> rw [h1] at h
    · have hc := List.mem_of_mem_head? h
      clear h h1 hC
      revert hc; revert c; decide
    · have hc := List.mem_of_mem_head? h
      clear h h1 hC
      revert hc; revert c; decide
    · have hc := List.mem_of_mem_head? h
      clear h h1 hC
      revert hc; revert c; decide
    · have hc := List.mem_of_mem_head? h
      clear h h1 hC
      revert hc; revert c; decide
    · have hstep : (replaceAtSign (pyStrip (pyLowerList s.data))).head? = some c := by
        have hfl := flatten_splitRuns (replaceAtSign (pyStrip (pyLowerList s.data)))
        rw [hC] at hfl
        rw [← hfl, flatten_cons_head? hx1ne]
        exact h
      exact step1_head_nonws hstep

theorem normalize_last_nonws {s : String} {c : Char}
    (h : (normalize_text s).data.reverse.head? = some c) : isWsChar c = false := by
  rw [normalize_data_eq] at h
  rw [List.reverse_flatten, List.map_map, ← List.map_reverse] at h
  rcases hC : (splitRuns (replaceAtSign (pyStrip (pyLowerList s.data)))).reverse
    with _ | ⟨xk, C'⟩
  · rw [hC] at h; cases h
  · rw [hC] at h
    simp only [List.map_cons] at h
    have hxkmem : xk ∈ splitRuns (replaceAtSign (pyStrip (pyLowerList s.data))) := by
      rw [← List.mem_reverse, hC]
      simp
    have hxkne : xk ≠ [] := chunks_ne_nil (chunks_splitRuns _) xk hxkmem
    have hfne : (substRunFun xk).reverse ≠ [] := by
      simpa using substRunFun_ne_nil hxkne
    rw [flatten_cons_head? (by simpa using hfne)] at h
    rcases substRunFun_cases xk with h1 | h1 | h1 | h1 | h1 <;>
      rw [Function.comp_apply, h1] at h
    · have hc : c ∈ "tomorrow".data := by
        have := List.mem_of_mem_head? h
        rwa [List.mem_reverse] at this
      clear h h1 hC
      revert hc; revert c; decide
    · have hc : c ∈ "yesterday".data := by
        have := List.mem_of_mem_head? h
        rwa [List.mem_reverse] at this
      clear h h1 hC
      revert hc; revert c; decide
    · have hc : c ∈ "today".data := by
        have := List.mem_of_mem_head? h
        rwa [List.mem_reverse] at this
      clear h h1 hC
      revert hc; revert c; decide
    · have hc : c ∈ "tonight".data := by
        have := List.mem_of_mem_head? h
        rwa [List.mem_reverse] at this
      clear h h1 hC
      revert hc; revert c; decide
    · have hstep : (replaceAtSign (pyStrip (pyLowerList s.data))).reverse.head? = some c := by
        have hfl := flatten_splitRuns (replaceAtSign (pyStrip (pyLowerList s.data)))
        have : (replaceAtSign (pyStrip (pyLowerList s.data))).reverse =
            ((splitRuns (replaceAtSign (pyStrip (pyLowerList s.data)))).map
              List.reverse).reverse.flatten := by
          rw [← List.reverse_flatten, hfl]
        rw [this, ← List.map_reverse, hC]
        simp only [List.map_cons]
        rw [flatten_cons_head? (by simpa using hxkne)]
        exact h
      exact step1_last_nonws hstep

theorem trimLeft_eq_self {l : List Char}
    (h : ∀ c, l.head? = some c → isWsChar c = false) : trimLeft l = l := by
  rcases l with _ | ⟨c, t⟩
  · rfl
  · unfold trimLeft
    rw [List.dropWhile_cons, if_neg (by rw [h c rfl]; simp)]

theorem trimRight_eq_self {l : List Char}
    (h : ∀ c, l.reverse.head? = some c → isWsChar c = false) : trimRight l = l := by
  unfold trimRight
  have hrev : l.reverse.dropWhile isWsChar = l.reverse := by
    rcases hr : l.reverse with _ | ⟨c, t⟩
    · rfl
    · rw [List.dropWhile_cons, if_neg (by rw [h c (by rw [hr]; rfl)]; simp)]
  rw [hrev, List.reverse_reverse]

theorem pyStrip_normalize (s : String) :
    pyStrip (normalize_text s).data = (normalize_text s).data := by
  unfold pyStrip
  rw [trimLeft_eq_self (fun c hc => normalize_head_nonws hc)]
  exact trimRight_eq_self (fun c hc => normalize_last_nonws hc)

theorem pyLower_normalize (s : String) :
    pyLowerList (normalize_text s).data = (normalize_text s).data :=
  map_eq_self_of_mem normalize_lower_stable

theorem replaceAt_normalize (s : String) :
    replaceAtSign (normalize_text s).data = (normalize_text s).data :=
  replaceAtSign_eq_self normalize_no_at

theorem normalize_fixed {t : String}
    (h1 : pyLowerList t.data = t.data)
    (h2 : pyStrip t.data = t.data)
    (h3 : replaceAtSign t.data = t.data)
    (h4 : ∀ run ∈ splitRuns t.data,
      run ≠ "tmr".data ∧ run ≠ "yest".data ∧ run ≠ "tdy".data ∧ run ≠ "tn".data) :
    normalize_text t = t := by
  unfold normalize_text
  rw [h1, h2, h3]
  simp only [abbreviations, List.foldl_cons, List.foldl_nil]
  rw [substWord_eq_self (fun run hr => (h4 run hr).1)]
  rw [substWord_eq_self (fun run hr => (h4 run hr).2.1)]
  rw [substWord_eq_self (fun run hr => (h4 run hr).2.2.1)]
  rw [substWord_eq_self (fun run hr => (h4 run hr).2.2.2)]

/-! ### Title-pipeline lemmas -/

theorem build_title_from_tokens_ne {doc : List Parser.SpacyToken}
    {skips infs : List Nat} {x : String}
    (h : Parser.build_title_from_tokens doc skips infs = some x) : x ≠ "" := by
  unfold Parser.build_title_from_tokens at h
  simp only [] at h
  split at h
  · cases h
  · split at h
    · cases h
    · next hne => cases h; exact hne

theorem mem_joinWords {c : Char} :
    ∀ {ws : List (List Char)}, c ∈ joinWords ws → (∃ w ∈ ws, c ∈ w) ∨ c = ' ' := by
  intro ws
  induction ws with
  | nil => intro h; cases h
  | cons w ws' ih =>
    intro h
    rcases ws' with _ | ⟨w2, ws''⟩
    · exact Or.inl ⟨w, by simp, h⟩
    · rw [show joinWords (w :: w2 :: ws'') = w ++ ' ' :: joinWords (w2 :: ws'') from rfl] at h
      rcases List.mem_append.mp h with h1 | h1
      · exact Or.inl ⟨w, by simp, h1⟩
      · rcases List.mem_cons.mp h1 with rfl | h2
        · exact Or.inr rfl
        · rcases ih h2 with ⟨w3, hw3, hc⟩ | h3
          · exact Or.inl ⟨w3, by simp [hw3], hc⟩
          · exact Or.inr h3

theorem joinStrings_no_upper {ws : List String}
    (h : ∀ w ∈ ws, noUpperString w) : noUpperString (joinStrings ws) := by
  intro c hc
  rcases mem_joinWords hc with ⟨w, hw, hcw⟩ | rfl
  · obtain ⟨sw, hsw, rfl⟩ := List.mem_map.mp hw
    exact h sw hsw c hcw
  · decide

theorem pyStripStr_no_upper {s : String} (h : noUpperString s) :
    noUpperString (pyStripStr s) := fun c hc => h c (mem_pyStrip hc)

theorem mem_pySplitAux {c : Char} :
    ∀ {l acc : List Char} {w : List Char}, w ∈ pySplitAux l acc → c ∈ w →
      c ∈ l ∨ c ∈ acc := by
  intro l
  induction l with
  | nil =>
    intro acc w hw hc
    unfold pySplitAux at hw
    split at hw
    · cases hw
    · simp only [List.mem_singleton] at hw
      subst hw
      right
      simpa using hc
  | cons a t ih =>
    intro acc w hw hc
    unfold pySplitAux at hw
    split at hw
    · split at hw
      · rcases ih hw hc with h1 | h1
        · exact Or.inl (by simp [h1])
        · cases h1
      · rcases List.mem_cons.mp hw with rfl | h2
        · right; simpa using hc
        · rcases ih h2 hc with h1 | h1
          · exact Or.inl (by simp [h1])
          · cases h1
    · rcases ih hw hc with h1 | h1
      · exact Or.inl (by simp [h1])
      · rcases List.mem_cons.mp h1 with rfl | h3
        · exact Or.inl (by simp)
        · exact Or.inr h3

theorem mem_pySplit_word {c : Char} {l w : List Char}
    (hw : w ∈ pySplit l) (hc : c ∈ w) : c ∈ l := by
  rcases mem_pySplitAux hw hc with h | h
  · exact h
  · cases h

theorem wordAt_mem {words : List String} {i : Nat} (h : i < words.length) :
    Parser.wordAt words i ∈ words := by
  unfold Parser.wordAt
  rcases hg : words[i]? with _ | x
  · rw [List.getElem?_eq_none_iff] at hg
    omega
  · exact List.getElem?_mem hg

theorem filterWordsAux_mem {words : List String} :
    ∀ (fuel i : Nat) (skips : List Nat) (acc : List String) (w : String),
      w ∈ Parser.filterWordsAux words fuel i skips acc →
      w ∈ acc ∨ w ∈ words := by
  intro fuel
  induction fuel with
  | zero =>
    intro i skips acc w h
    exact Or.inl h
  | succ n ih =>
    intro i skips acc w h
    rw [Parser.filterWordsAux] at h
    by_cases hi : i < words.length
    · rw [if_pos hi] at h
      rcases ih (i + 1) _ _ w h with ha | hw
      · split at ha
        · rcases List.mem_append.mp ha with h1 | h1
          · exact Or.inl h1
          · simp only [List.mem_singleton] at h1
            subst h1
            exact Or.inr (wordAt_mem hi)
        · exact Or.inl ha
      · exact Or.inr hw
    · rw [if_neg hi] at h
      exact Or.inl h

theorem filter_words_no_upper {t : String} (h : noUpperString t) :
    noUpperString (Parser.filter_words_fallback t) := by
  unfold Parser.filter_words_fallback
  apply pyStripStr_no_upper
  apply joinStrings_no_upper
  intro w hw
  rcases filterWordsAux_mem ((pySplit t.data).map (fun l => (⟨l⟩ : String))).length
      0 [] [] w hw with h1 | h1
  · cases h1
  · obtain ⟨wl, hwl, rfl⟩ := List.mem_map.mp h1
    intro c hc
    exact h c (mem_pySplit_word hwl hc)

theorem build_title_from_tokens_no_upper {doc : List Parser.SpacyToken}
    {skips infs : List Nat} {x : String}
    (htok : ∀ tok ∈ doc, noUpperString tok.text)
    (h : Parser.build_title_from_tokens doc skips infs = some x) :
    noUpperString x := by
  unfold Parser.build_title_from_tokens at h
  simp only [] at h
  split at h
  · cases h
  · split at h
    · cases h
    · cases h
      apply pyStripStr_no_upper
      apply joinStrings_no_upper
      intro w hw
      obtain ⟨p, hp, hps⟩ := List.mem_filterMap.mp hw
      split at hps
      · cases hps
      · split at hps
        · cases hps
          exact htok p.2 (List.snd_mem_of_mem_enum hp)
        · cases hps

theorem build_title_fallback_no_upper {doc : List Parser.SpacyToken}
    {skips : List Nat} (htok : ∀ tok ∈ doc, noUpperString tok.text) :
    noUpperString (Parser.build_title_fallback doc skips) := by
  unfold Parser.build_title_fallback
  apply pyStripStr_no_upper
  apply joinStrings_no_upper
  intro w hw
  obtain ⟨p, hp, hps⟩ := List.mem_filterMap.mp hw
  split at hps
  · cases hps
  · split at hps
    · cases hps
      exact htok p.2 (List.snd_mem_of_mem_enum hp)
    · cases hps

theorem extract_title_ne {nlp : String → List Parser.SpacyToken} {t : String}
    (hne : pyStripStr t ≠ "") : Parser.extract_title nlp t ≠ "" := by
  unfold Parser.extract_title
  simp only []
  split
  · next title htitle => exact build_title_from_tokens_ne htitle
  · split
    · next h2 => exact h2
    · split
      · next h3 => exact h3
      · exact hne

theorem extract_title_no_upper {nlp : String → List Parser.SpacyToken} {t : String}
    (ht : noUpperString t) (htok : ∀ tok ∈ nlp t, noUpperString tok.text) :
    noUpperString (Parser.extract_title nlp t) := by
  unfold Parser.extract_title
  simp only []
  split
  · next title htitle => exact build_title_from_tokens_no_upper htok htitle
  · split
    · exact build_title_fallback_no_upper htok
    · split
      · exact filter_words_no_upper ht
      · exact pyStripStr_no_upper ht

theorem extract_title_fallback_eq {nlp : String → List Parser.SpacyToken}
    {t : String}
    (h1 : Parser.build_title_from_tokens (nlp t)
      (Parser.identify_tokens_to_skip (nlp t))
      (Parser.extract_infinitive_phrases (nlp t)) = none)
    (h2 : Parser.build_title_fallback (nlp t)
      (Parser.identify_tokens_to_skip (nlp t)) = "")
    (h3 : Parser.filter_words_fallback t = "") :
    Parser.extract_title nlp t = pyStripStr t := by
  unfold Parser.extract_title
  simp only [h1, h2, h3]
  simp

/-! ### Parse-level lemmas -/

theorem extract_time_range_none_iff {text : String} {base : PyDateTime} :
    extract_time_range text base = none ↔
      range_match (pyLowerList text.data) = none := by
  unfold extract_time_range
  exact Option.map_eq_none'

theorem extract_time_eq_explicit {now : PyDateTime} {text : String}
    {date_obj : Option PyDateTime}
    (h : range_match (pyLowerList text.data) = none) :
    Parser.extract_time now text date_obj = extract_explicit_time text := by
  unfold Parser.extract_time
  simp only []
  rw [extract_time_range_none_iff.mpr h]
  rcases he : extract_explicit_time text with _ | e
  · dsimp only
    split
    all_goals rfl
  · rfl

theorem normalize_ne_empty {text : String} (h : pyStripStr text ≠ "") :
    normalize_text text ≠ "" := by
  intro hcontra
  apply h
  have hdata : (normalize_text text).data = [] := by rw [hcontra]
  rw [normalize_data_eq] at hdata
  rcases hC : splitRuns (replaceAtSign (pyStrip (pyLowerList text.data)))
    with _ | ⟨x1, C'⟩
  · have hstep : replaceAtSign (pyStrip (pyLowerList text.data)) = [] := by
      have hfl := flatten_splitRuns (replaceAtSign (pyStrip (pyLowerList text.data)))
      rw [hC] at hfl
      simpa using hfl.symm
    have hstrip : pyStrip (pyLowerList text.data) = [] := by
      rcases hl : pyStrip (pyLowerList text.data) with _ | ⟨c, t⟩
      · rfl
      · rw [hl] at hstep
        unfold replaceAtSign at hstep
        simp only [List.map_cons, List.flatten_cons] at hstep
        split at hstep <;> cases hstep
    have hws := pyStrip_eq_nil_iff.mp hstrip
    have hws2 : ∀ c ∈ text.data, isWsChar c = true := by
      intro c hc
      have hw := hws (py_lower_char c) (List.mem_map.mpr ⟨c, hc, rfl⟩)
      rwa [isWsChar_py_lower] at hw
    show pyStripStr text = ""
    unfold pyStripStr
    rw [pyStrip_eq_nil_iff.mpr hws2]
  · rw [hC] at hdata
    simp only [List.map_cons, List.flatten_cons] at hdata
    have hx1ne : x1 ≠ [] := chunks_ne_nil (chunks_splitRuns _) x1 (by rw [hC]; simp)
    have hfne := substRunFun_ne_nil hx1ne
    rcases hs : substRunFun x1 with _ | ⟨c, t⟩
    · exact absurd hs hfne
    · rw [hs] at hdata
      cases hdata

theorem pyStripStr_normalize (s : String) :
    pyStripStr (normalize_text s) = normalize_text s := by
  unfold pyStripStr
  rw [pyStrip_normalize]

theorem parse_some_title {dp : String → Option PyDateTime}
    {cal : String → PyDateTime × Int} {nlp : String → List Parser.SpacyToken}
    {now : PyDateTime} {text : String} {ev : Parser.ParsedEvent}
    (hguard : ¬(text = "" ∨ pyStripStr text = ""))
    (h : Parser.parse dp cal nlp now text = some ev) :
    ev.title = Parser.extract_title nlp (normalize_text text) := by
  unfold Parser.parse at h
  rw [if_neg hguard] at h
  simp only [] at h
  split at h
  · split at h
    · cases h; rfl
    · cases h
  · split at h
    · cases h
    · cases h; rfl

theorem merge_some_of_le {d : PyDateTime} {h m : Nat} (hh : h ≤ 23) (hm : m ≤ 59) :
    merge_datetime_time d (some (h, m)) =
      some { d with hour := h, minute := m, second := 0, usec := 0 } := by
  simp only [merge_datetime_time]
  rw [if_pos ⟨hh, hm⟩]

theorem pyStripStr_data_eq_nil {text : String} (h : pyStripStr text = "") :
    pyStrip text.data = [] := by
  have := congrArg String.data h
  simpa [pyStripStr] using this

theorem parse_end_time {dp : String → Option PyDateTime}
    {cal : String → PyDateTime × Int} {nlp : String → List Parser.SpacyToken}
    {now : PyDateTime} {text : String} {ev : Parser.ParsedEvent}
    (h : Parser.parse dp cal nlp now text = some ev) :
    (ev.end_time.isSome ↔ (extract_time_range text now).isSome) := by
  unfold Parser.parse at h
  split at h
  · next hguard =>
    cases h
    have hrange : extract_time_range text now = none := by
      apply extract_time_range_of_ws
      rcases hguard with hempty | hstrip
      · intro c hc
        rw [hempty] at hc
        cases hc
      · exact pyStrip_eq_nil_iff.mp (pyStripStr_data_eq_nil hstrip)
    rw [hrange]
    simp
  · simp only [] at h
    split at h
    · next se hse =>
      split at h
      · cases h
        rw [hse]
        simp
      · cases h
    · next hnone =>
      split at h
      · cases h
      · cases h
        rw [hnone]
        simp

theorem parse_isSome_of_bounds {dp : String → Option PyDateTime}
    {cal : String → PyDateTime × Int} {nlp : String → List Parser.SpacyToken}
    {now : PyDateTime} {text : String}
    (h1 : ∀ sh sm eh em, extract_time_range text now = some ((sh, sm), (eh, em)) →
      sh ≤ 23 ∧ sm ≤ 59 ∧ eh ≤ 23 ∧ em ≤ 59)
    (h2 : ∀ hr mi, extract_explicit_time text = some (hr, mi) → hr ≤ 23 ∧ mi ≤ 59) :
    (Parser.parse dp cal nlp now text).isSome := by
  unfold Parser.parse
  split
  · simp
  · next hguard =>
    simp only []
    split
    · next se hse =>
      obtain ⟨⟨sh, sm⟩, eh, em⟩ := se
      obtain ⟨ha, hb, hc, hd⟩ := h1 sh sm eh em hse
      rw [merge_some_of_le ha hb, merge_some_of_le hc hd]
      simp
    · next hnone =>
      have hexp : Parser.extract_time now text
          (Parser.extract_datetime dp cal now (normalize_text text)) =
            extract_explicit_time text :=
        extract_time_eq_explicit (extract_time_range_none_iff.mp hnone)
      rw [hexp]
      rcases hdo : Parser.extract_datetime dp cal now (normalize_text text)
        with _ | d
      · rcases he : extract_explicit_time text with _ | ⟨hr, mi⟩
        · simp
        · obtain ⟨hh, hm⟩ := h2 hr mi he
          dsimp only
          rw [merge_some_of_le hh hm]
          simp
      · rcases he : extract_explicit_time text with _ | ⟨hr, mi⟩
        · simp
        · obtain ⟨hh, hm⟩ := h2 hr mi he
          dsimp only
          rw [merge_some_of_le hh hm]
          simp

/-! ### Claim theorems -/

/-- C1: the spec states that in the no-time-range branch, `extract_time`
falls back to `extract_explicit_time` only if the resolved date has no
time component already set, and otherwise returns absent.  The source
computes the `has_time` flag but returns the explicit time *before*
consulting it (both remaining branches return `None`, so the flag is
dead), hence for the date 05:30 — which has a time component — and the
text `"3pm"` — which contains no time range — `extract_time` returns
`(15, 0)` instead of the claimed absent.  The dead `has_time` computation
indicates the gate was intended; the code is the slip. -/
theorem c1_extract_time_gate_is_dead :
    extract_time_range "3pm" d530 = none ∧
    (d530.hour ≠ 0 ∨ d530.minute ≠ 0) ∧
    extract_explicit_time "3pm" = some (15, 0) ∧
    Parser.extract_time now0 "3pm" (some d530) = some (15, 0) :=
  ⟨rfl, by decide, rfl, rfl⟩

/-- C2 (counterexample): `extract_explicit_time "45pm"` matches the
12-hour pattern with the two-digit capture 45 and the meridiem conversion
turns it into hour 57, violating the claimed invariant hour ∈ [0, 23]. -/
theorem c2_counterexample :
    extract_explicit_time "45pm" = some (57, 0) ∧ ¬(57 ≤ 23) :=
  ⟨rfl, by decide⟩

/-- C2 (amended): the captured fields are at most two digits (≤ 99) and
the meridiem conversion adds at most 12, so every `TimeOfDay` returned by
`extract_explicit_time`, and both endpoints of every `TimeRange` returned
by `extract_time_range` (for a base datetime with valid hour/minute),
satisfy hour ∈ [0, 111] and minute ∈ [0, 99]; the claimed [0, 23] /
[0, 59] bounds are not enforced by the code. -/
theorem c2_time_bounds (s : String) (base : PyDateTime)
    (hbase : base.hour ≤ 23 ∧ base.minute ≤ 59) :
    (∀ h m, extract_explicit_time s = some (h, m) → h ≤ 111 ∧ m ≤ 99) ∧
    (∀ sh sm eh em, extract_time_range s base = some ((sh, sm), (eh, em)) →
      (sh ≤ 111 ∧ sm ≤ 99) ∧ (eh ≤ 111 ∧ em ≤ 99)) := by
  refine ⟨fun h m he => extract_explicit_time_bound he, fun sh sm eh em he => ?_⟩
  obtain ⟨a, b, c, d⟩ := extract_time_range_bound hbase he
  exact ⟨⟨a, b⟩, c, d⟩

/-- C2 witness: the amended bounds applied at `"2-4pm"` with base `now0`
(the explicit-time scanner finds `4pm` → 16:00 in that text, the range
scanner finds 14:00–16:00). -/
theorem c2_time_bounds_witness :
    (16 ≤ 111 ∧ 0 ≤ 99) ∧ ((14 ≤ 111 ∧ 0 ≤ 99) ∧ (16 ≤ 111 ∧ 0 ≤ 99)) := by
  have h := c2_time_bounds "2-4pm" now0 (by decide)
  exact ⟨h.1 16 0 rfl, h.2 14 0 16 0 rfl⟩

/-- C3 (counterexample): with collaborators producing nothing, on input
`"TMR"` all three title strategies yield absent/empty and `parse` returns
the title `"tomorrow"` — the trimmed *normalized* text — which differs
from the trimmed original input `"TMR"` claimed by the spec. -/
theorem c3_counterexample :
    Parser.parse dp0 cal0 nlp0 now0 "TMR" =
      some { title := "tomorrow", datetime := none, end_time := none,
             etype := "event" } ∧
    pyStripStr "TMR" = "TMR" ∧ ("tomorrow" : String) ≠ "TMR" :=
  ⟨rfl, rfl, by decide⟩

/-- C3 (amended): for every nonempty (non-whitespace) input, the title
cascade terminates with a final fallback producing the trimmed
*normalized* input, so whenever `parse` returns an event its title is
never the empty string; in particular when all three strategies yield
absent/empty the returned title equals the normalized (lowercased,
trimmed, abbreviation-expanded) input text — not the trimmed original. -/
theorem c3_title_nonempty (dp : String → Option PyDateTime)
    (cal : String → PyDateTime × Int) (nlp : String → List Parser.SpacyToken)
    (now : PyDateTime) (text : String) (hne : pyStripStr text ≠ "") :
    ∀ ev, Parser.parse dp cal nlp now text = some ev →
      ev.title ≠ "" ∧
      (Parser.build_title_from_tokens (nlp (normalize_text text))
          (Parser.identify_tokens_to_skip (nlp (normalize_text text)))
          (Parser.extract_infinitive_phrases (nlp (normalize_text text))) = none →
        Parser.build_title_fallback (nlp (normalize_text text))
          (Parser.identify_tokens_to_skip (nlp (normalize_text text))) = "" →
        Parser.filter_words_fallback (normalize_text text) = "" →
        ev.title = normalize_text text) := by
  intro ev hev
  have hguard : ¬(text = "" ∨ pyStripStr text = "") := by
    rintro (rfl | hstrip)
    · exact hne rfl
    · exact hne hstrip
  have htitle := parse_some_title hguard hev
  have hnorm_ne : pyStripStr (normalize_text text) ≠ "" := by
    rw [pyStripStr_normalize]
    exact normalize_ne_empty hne
  refine ⟨?_, ?_⟩
  · rw [htitle]
    exact extract_title_ne hnorm_ne
  · intro h1 h2 h3
    rw [htitle, extract_title_fallback_eq h1 h2 h3, pyStripStr_normalize]

/-- C3 witness: the amended statement applied at `"TMR"` with the empty
tokenizer: the title is `"tomorrow" = normalize_text "TMR"`, nonempty. -/
theorem c3_title_nonempty_witness :
    ("tomorrow" : String) ≠ "" ∧ ("tomorrow" : String) = normalize_text "TMR" := by
  have h := c3_title_nonempty dp0 cal0 nlp0 now0 "TMR" (by decide)
    { title := "tomorrow", datetime := none, end_time := none, etype := "event" }
    rfl
  exact ⟨h.1, h.2 rfl rfl rfl⟩

/-- C4 (counterexample): with collaborators that return nothing and raise
nothing, `parse "45pm"` raises an uncaught `ValueError`: the unvalidated
two-digit capture yields the time (57, 0) and `datetime.replace` inside
`merge_datetime_time` rejects hour 57 — modelled by the `none` result. -/
theorem c4_counterexample :
    Parser.parse dp0 cal0 nlp0 now0 "45pm" = none ∧
    extract_explicit_time "45pm" = some (57, 0) ∧
    merge_datetime_time now0 (some (57, 0)) = none :=
  ⟨rfl, rfl, rfl⟩

/-- C4 (amended): `parse` completes and returns a `ParsedEvent` provided
the external collaborators behave *and* every time value extracted from
the text (range endpoints and explicit times) is in range (hour ≤ 23,
minute ≤ 59); without that extra proviso the merge step can raise, so
absence is not the only signal of a failed stage. -/
theorem c4_parse_total_inrange (dp : String → Option PyDateTime)
    (cal : String → PyDateTime × Int) (nlp : String → List Parser.SpacyToken)
    (now : PyDateTime) (text : String)
    (h1 : ∀ sh sm eh em, extract_time_range text now = some ((sh, sm), (eh, em)) →
      sh ≤ 23 ∧ sm ≤ 59 ∧ eh ≤ 23 ∧ em ≤ 59)
    (h2 : ∀ hr mi, extract_explicit_time text = some (hr, mi) →
      hr ≤ 23 ∧ mi ≤ 59) :
    (Parser.parse dp cal nlp now text).isSome :=
  parse_isSome_of_bounds h1 h2

/-- C4 witness: totality at `"3pm"`, whose only extracted time is
(15, 0). -/
theorem c4_parse_total_inrange_witness :
    (Parser.parse dp0 cal0 nlp0 now0 "3pm").isSome := by
  apply c4_parse_total_inrange
  · intro sh sm eh em he
    rw [show extract_time_range "3pm" now0 = none from rfl] at he
    cases he
  · intro hr mi he
    rw [show extract_explicit_time "3pm" = some (15, 0) from rfl] at he
    simp only [Option.some.injEq, Prod.mk.injEq] at he
    omega

/-- C5: in every `ParsedEvent` returned by `parse`, `end_time` is set iff
`extract_time_range` detects a range in the raw input text (detection is
independent of the base datetime, which only supplies the start value of
the `now`-anchored patterns). -/
theorem c5_end_time_iff_range (dp : String → Option PyDateTime)
    (cal : String → PyDateTime × Int) (nlp : String → List Parser.SpacyToken)
    (now : PyDateTime) (text : String) :
    ∀ ev, Parser.parse dp cal nlp now text = some ev →
      (ev.end_time.isSome ↔ (extract_time_range text now).isSome) :=
  fun _ hev => parse_end_time hev

/-- C5 witness: at `"2-4pm"`, `end_time` is set and a range is detected. -/
theorem c5_end_time_iff_range_witness :
    ((some (⟨0, 16, 0, 0, 0⟩ : PyDateTime)).isSome ↔
      (extract_time_range "2-4pm" now0).isSome) :=
  c5_end_time_iff_range dp0 cal0 nlp0 now0 "2-4pm"
    { title := "2-4pm", datetime := some ⟨0, 14, 0, 0, 0⟩,
      end_time := some ⟨0, 16, 0, 0, 0⟩, etype := "event" } rfl

/-- C6: the fixed keywords of `extract_explicit_time` are checked first
and return immediately (noon → 12:00 even when a regex would match later
text, as in "noon 3pm"; midnight → 0:00; "at night" → 20:00), and the
meridiem conversion gives 3pm → 15:00, 3am → 3:00, 12pm → 12:00,
12am → 0:00. -/
theorem c6_explicit_time_examples :
    extract_explicit_time "3pm" = some (15, 0) ∧
    extract_explicit_time "3am" = some (3, 0) ∧
    extract_explicit_time "12pm" = some (12, 0) ∧
    extract_explicit_time "12am" = some (0, 0) ∧
    extract_explicit_time "noon" = some (12, 0) ∧
    extract_explicit_time "midnight" = some (0, 0) ∧
    extract_explicit_time "at night" = some (20, 0) ∧
    extract_explicit_time "noon 3pm" = some (12, 0) :=
  ⟨rfl, rfl, rfl, rfl, rfl, rfl, rfl, rfl⟩

/-- C7: in `extract_time_range` a single trailing meridiem applies to both
hours of an hour-to-hour range ("2-4pm" → 14:00–16:00), and no check
enforces chronological order: "11-1pm" returns the range 23:00–13:00,
whose end is earlier in the day than its start. -/
theorem c7_range_meridiem_and_no_order (base : PyDateTime) :
    extract_time_range "2-4pm" base = some ((14, 0), (16, 0)) ∧
    extract_time_range "11-1pm" base = some ((23, 0), (13, 0)) ∧
    13 * 60 + 0 < 23 * 60 + 0 :=
  ⟨rfl, rfl, by decide⟩

/-- C8: `normalize_text` is idempotent:
`normalize_text (normalize_text s) = normalize_text s` for every string. -/
theorem c8_normalize_idempotent (s : String) :
    normalize_text (normalize_text s) = normalize_text s :=
  normalize_fixed (pyLower_normalize s) (pyStrip_normalize s)
    (replaceAt_normalize s) normalize_runs_not_abbrev

/-- C9: `detect_intent` returns "reminder" iff the normalized text starts
with the literal prefix "remind me", and returns "event" exactly
otherwise. -/
theorem c9_detect_intent_iff (s : String) :
    (Parser.detect_intent s = "reminder" ↔
      hasPrefixList "remind me".data (normalize_text s).data = true) ∧
    (Parser.detect_intent s = "event" ↔
      ¬ hasPrefixList "remind me".data (normalize_text s).data = true) := by
  unfold Parser.detect_intent
  simp only []
  split
  · next hp => simp [hp]
  · next hp => simp [hp]

/-- C10: every title-extraction strategy operates on the normalized
(lowercased) text, so — given that the external tokenizer's tokens carry
no uppercase characters, as spans of the normalized text it receives —
the title of every event returned by `parse` contains no uppercase
character: the original casing of the input never appears in it. -/
theorem c10_title_no_uppercase (dp : String → Option PyDateTime)
    (cal : String → PyDateTime × Int) (nlp : String → List Parser.SpacyToken)
    (now : PyDateTime) (text : String)
    (htok : ∀ tok ∈ nlp (normalize_text text), noUpperString tok.text) :
    ∀ ev, Parser.parse dp cal nlp now text = some ev →
      noUpperString ev.title := by
  intro ev hev
  by_cases hguard : text = "" ∨ pyStripStr text = ""
  · unfold Parser.parse at hev
    rw [if_pos hguard] at hev
    cases hev
    intro c hc
    cases hc
  · rw [parse_some_title hguard hev]
    exact extract_title_no_upper normalize_no_upper htok

/-- C10 witness: at input `"Hello"` with the empty tokenizer the returned
title is `"hello"`, which carries no uppercase character. -/
theorem c10_title_no_uppercase_witness : noUpperString "hello" :=
  c10_title_no_uppercase dp0 cal0 nlp0 now0 "Hello"
    (by intro tok htok; cases htok)
    { title := "hello", datetime := none, end_time := none, etype := "event" }
    rfl
